import Mathlib

set_option maxRecDepth 100000
set_option maxHeartbeats 1600000

/-!
Shallow embedding of `flow.py` (FunctionFlow v1.02): a heuristic call-graph
extractor for C-family sources.  Python strings are modelled as `List Char`
(wrapped in `String` for the token level), Python list indexing (including
negative-index wraparound and `IndexError`) by `pyGet?`, and the two scanner
loops that can run past the end of the token list by fuel-bounded recursion
returning `Option` (`none` = uncaught `IndexError` / divergence).  All
definitions are structurally recursive so that they evaluate in the kernel.
-/

namespace FunctionFlow

/-- Python `l[i]`: non-negative indices are plain lookups, indices in
`[-len, -1]` wrap around to the end, anything else raises `IndexError`
(modelled as `none`). -/
def pyGet? (l : List String) (i : Int) : Option String :=
  if 0 ≤ i then l.get? i.toNat
  else if (-i).toNat ≤ l.length then l.get? (l.length - (-i).toNat)
  else none

/-- Clamp an index for Python slice semantics. -/
def pyClamp (len : Nat) (i : Int) : Nat :=
  if i < 0 then (if (len : Int) + i < 0 then 0 else ((len : Int) + i).toNat)
  else min i.toNat len

/-- Python `l[a:b]`. -/
def pySlice (l : List String) (a b : Int) : List String :=
  (l.take (pyClamp l.length b)).drop (pyClamp l.length a)

/-- Core of Python `str.replace`: leftmost, non-overlapping, greedy.  After a
match we still have to pass over the matched characters; `skip` counts the
pattern characters already consumed, so the recursion is structural on `s`. -/
def replaceCore (pat repl : List Char) : List Char → Nat → List Char
  | [], _ => []
  | _ :: rest, skip + 1 => replaceCore pat repl rest skip
  | c :: rest, 0 =>
    if pat.isPrefixOf (c :: rest) then repl ++ replaceCore pat repl rest (pat.length - 1)
    else c :: replaceCore pat repl rest 0

/-- Python `s.replace(pat, repl)` (for the nonempty patterns used in the
source). -/
def replaceL (pat repl s : List Char) : List Char :=
  if pat = [] then s else replaceCore pat repl s 0

/-- Python `s.find(pat)`: index of the first occurrence, `-1` if absent. -/
def findL (pat : List Char) : List Char → Int
  | [] => if pat = [] then 0 else -1
  | c :: rest =>
    if pat.isPrefixOf (c :: rest) then 0
    else
      let r := findL pat rest
      if r < 0 then -1 else r + 1

/-- Core of Python `str.split(sep)` for a nonempty separator; `skip` plays the
same role as in `replaceCore`. -/
def splitCore (sep : List Char) : List Char → List Char → Nat → List (List Char)
  | [], cur, _ => [cur.reverse]
  | _ :: rest, cur, skip + 1 => splitCore sep rest cur skip
  | c :: rest, cur, 0 =>
    if sep.isPrefixOf (c :: rest) then cur.reverse :: splitCore sep rest [] (sep.length - 1)
    else splitCore sep rest (c :: cur) 0

/-- Python `s.split(sep)` for a nonempty separator. -/
def pySplit (sep s : List Char) : List (List Char) :=
  splitCore sep s [] 0

/-- Python `s.split(sep)` at the `String` level, as a list of strings. -/
def pySplitS (sep : String) (s : String) : List String :=
  (pySplit sep.data s.data).map String.mk

/-- `line.split(" ")` followed by the source's filter dropping `''` fragments
(`flow.py` lines 485-486). -/
def splitF (s : List Char) : List (List Char) :=
  (pySplit [' '] s).filter (fun t => t ≠ [])

/-- `sanitizeName` (`flow.py` lines 327-341): character replacements for DOT
safety, in the source's order. -/
def sanitizeName (s : String) : String :=
  let l1 := replaceL "::".data "_".data s.data
  let l2 := replaceL "~".data "".data l1
  let l3 := replaceL "%".data "_".data l2
  let l4 := replaceL ".".data "_".data l3
  let l5 := replaceL "?".data "_".data l4
  let l6 := replaceL "|".data "_".data l5
  let l7 := replaceL "!".data "_".data l6
  let l8 := replaceL ";".data "".data l7
  let l9 := replaceL ":".data "".data l8
  String.mk l9

/-- The per-line transformation of `fileToList` (`flow.py` lines 453-486):
single-line-comment handling, padding/sentinel replacements in source order,
then split on spaces dropping empty fragments. -/
def processLine (line : List Char) : List (List Char) :=
  let l0 := replaceL "//".data "// ".data line
  let index := findL "//".data l0
  let l1 := if index ≠ -1 ∧ ¬(findL "/*".data l0 < index) then l0.take index.toNat else l0
  let l2 := replaceL "(".data " ( ".data l1
  let l3 := replaceL ")".data " ) ".data l2
  let l4 := replaceL "\x7b".data " \x7b ".data l3
  let l5 := replaceL "\x7d".data " \x7d ".data l4
  let l6 := replaceL "[".data " [ ".data l5
  let l7 := replaceL "]".data " ] ".data l6
  let l8 := replaceL ",".data " , ".data l7
  let l9 := replaceL "\\".data " @IGNOREQUOTE@ ".data l8
  let l10 := replaceL "\t".data "".data l9
  let l11 := replaceL "\n".data "".data l10
  let l12 := replaceL "\"".data " @\"@ ".data l11
  let l13 := replaceL "/*".data " @BEGINLONGCOMMENT@ ".data l12
  let l14 := replaceL "*/".data " @ENDLONGCOMMENT@ ".data l13
  let l15 := replaceL "*".data " * ".data l14
  let l16 := replaceL "=".data " = ".data l15
  let l17 := replaceL "-".data " - ".data l16
  let l18 := replaceL "+".data " + ".data l17
  let l19 := replaceL ">".data " > ".data l18
  let l20 := replaceL "<".data " < ".data l19
  splitF l20

/-- `fileToList` (`flow.py` lines 426-492) on the list of physical lines of a
file: the flat token list plus the line-break index (initialised to `[0]`,
and extended with the current token count before each line is processed). -/
def fileToList (lines : List (List Char)) : List String × List Nat :=
  let st := lines.foldl
    (fun (st : List (List Char) × List Nat) line =>
      (st.1 ++ processLine line, st.2 ++ [st.1.length]))
    ([], [0])
  (st.1.map String.mk, st.2)

/-- `isNonStandardFunction` (`flow.py` lines 638-704): the callee denylist;
`true` means the name is kept as a call. -/
def isNonStandardFunction (name : String) : Bool :=
  if name = "if" then false
  else if name = "while" then false
  else if name = "for" then false
  else if name = "printf" then false
  else if name = "strlen" then false
  else if name = "sizeof" then false
  else if name = "return" then false
  else if name = "=" then false
  else if name = "==" then false
  else if name = "!=" then false
  else if name = ">=" then false
  else if name = "<=" then false
  else if name = ">" then false
  else if name = "<" then false
  else if name = "," then false
  else if name = "&" then false
  else if name = "\"" then false
  else if name = "*" then false
  else if name = "/" then false
  else if name = "+" then false
  else if name = "-" then false
  else if name = "||" then false
  else if name = "&&" then false
  else if name = "(" then false
  else if name = ")" then false
  else if name = "LOG_PRINT" then false
  else if name = "switch" then false
  else true

/-- A discovered function definition (`class Node`, `flow.py` lines 386-399).
Python's `className = False` is modelled as `none`. -/
structure Node where
  name : String
  parentName : String
  line : Int
  className : Option String
  arguments : List (List String)
  calledFunctions : List String
  deriving DecidableEq

/-- Python `list(set(l))`, modelled as deduplication keeping first
occurrences (the set's iteration order is unspecified; only membership is
used downstream). -/
def dedupAux (seen : List String) : List String → List String
  | [] => []
  | x :: rest =>
    if seen.contains x then dedupAux seen rest
    else x :: dedupAux (x :: seen) rest

/-- The name recorded for a call site whose preceding token is `t`
(`flow.py` line 635): drop the qualifier before the last `.`, sanitize. -/
def recordedCallee (t : String) : String :=
  sanitizeName (String.mk ((pySplit ".".data t.data).getLastD []))

/-- Loop body of `parseFunctionCalls` (`flow.py` lines 592-635), fuel-bounded:
`none` models the uncaught `IndexError` raised when the scan runs past the end
of the token list (or, equivalently, never returns). -/
def parseFunctionCallsAux (fl : List String) :
    Nat → Int → Nat → Bool → Bool → List String → Option (List String)
  | 0, _, _, _, _, _ => none
  | fuel + 1, tempIndex, braceCount, inComment, inString, acc =>
    let ti := tempIndex + 1
    match pyGet? fl ti with
    | none => none
    | some tok =>
      let inC1 := if tok = "@BEGINLONGCOMMENT@" ∧ ¬inString then true else inComment
      let inC := if tok = "@ENDLONGCOMMENT@" ∧ ¬inString then false else inC1
      let inS :=
        if ¬inC ∧ tok = "@\"@" ∧ pyGet? fl (ti - 1) ≠ some "@IGNOREQUOTE@" then !inString
        else inString
      if ¬inC ∧ ¬inS then
        if tok = "\x7b" then
          parseFunctionCallsAux fl fuel ti (braceCount + 1) inC inS acc
        else if tok = "\x7d" then
          if braceCount = 0 then some acc
          else parseFunctionCallsAux fl fuel ti (braceCount - 1) inC inS acc
        else if tok = "(" then
          match pyGet? fl (ti - 1) with
          | none => none
          | some prev =>
            if isNonStandardFunction prev then
              parseFunctionCallsAux fl fuel ti braceCount inC inS (acc ++ [recordedCallee prev])
            else
              parseFunctionCallsAux fl fuel ti braceCount inC inS acc
        else
          parseFunctionCallsAux fl fuel ti braceCount inC inS acc
      else
        parseFunctionCallsAux fl fuel ti braceCount inC inS acc

/-- `parseFunctionCalls` (`flow.py` lines 592-635).  The fuel
`fl.length + 2` strictly exceeds the number of iterations the Python loop can
make before either returning or raising, so `none` coincides exactly with the
`IndexError` behaviour. -/
def parseFunctionCalls (fl : List String) (startingIndex : Int) : Option (List String) :=
  parseFunctionCallsAux fl (fl.length + 2) startingIndex 0 false false []

/-- Argument grouping of `parseFunctionDefinition` (`flow.py` lines 566-575):
split the raw argument tokens on top-level commas. -/
def groupArguments (args : List String) : List (List String) :=
  ((List.range args.length).foldl
    (fun (st : Nat × List (List String)) j =>
      if args.get? j = some "," ∨ j = args.length - 1 then
        if j = args.length - 1 then (j + 1, st.2 ++ [(args.drop st.1).take (j + 1 - st.1)])
        else (j + 1, st.2 ++ [(args.drop st.1).take (j - st.1)])
      else st)
    (0, [])).2

/-- The body executed by `parseFunctionDefinition` once the matching unmatched
`(` has been found at position `ti` (`flow.py` lines 552-587): extract and
sanitize the name, reject denylisted names, group arguments, scan the body for
calls, and build the `Node`.  `some none` = site rejected, no node appended;
`some (some n)` = exactly one node appended. -/
def headerExtract (pn : String) (fl : List String) (ti index : Int) (dln : Int) :
    Option (Option Node) :=
  match pyGet? fl (ti - 1) with
  | none => none
  | some prev =>
    let fnl := pySplitS "::" prev
    let functionName :=
      if fnl.length > 1 then sanitizeName ((fnl.get? 1).getD "") else sanitizeName prev
    let className :=
      if fnl.length > 1 then some (sanitizeName ((fnl.get? 0).getD "")) else none
    if isNonStandardFunction functionName then
      match parseFunctionCalls fl (index + 1) with
      | none => none
      | some calls =>
        some (some
          { name := functionName, parentName := pn, line := dln, className := className,
            arguments := groupArguments (pySlice fl (ti + 1) index),
            calledFunctions := dedupAux [] calls })
    else some none

/-- Backward header scan of `parseFunctionDefinition` (`flow.py` lines
542-589), fuel-bounded: walk backward from the `)` at `index`, counting nested
parens, until the matching unmatched `(` is found, then run `headerExtract`.
`none` models the uncaught `IndexError` of a scan that falls off the front of
the list (after Python's negative-index wraparound is exhausted). -/
def parseFunctionDefinitionAux (pn : String) (fl : List String) (index dln : Int) :
    Nat → Int → Nat → Option (Option Node)
  | 0, _, _ => none
  | fuel + 1, tempIndex, parenCount =>
    let ti := tempIndex - 1
    match pyGet? fl ti with
    | none => none
    | some tok =>
      let pc := if tok = ")" then parenCount + 1 else parenCount
      if tok = "(" then
        if pc = 0 then headerExtract pn fl ti index dln
        else parseFunctionDefinitionAux pn fl index dln fuel ti (pc - 1)
      else parseFunctionDefinitionAux pn fl index dln fuel ti pc

/-- `parseFunctionDefinition` (`flow.py` lines 535-589).  The fuel strictly
exceeds the number of iterations possible before the Python loop either finds
the `(` or raises `IndexError`. -/
def parseFunctionDefinition (pn : String) (fl : List String) (index dln : Int) :
    Option (Option Node) :=
  parseFunctionDefinitionAux pn fl index dln (index.toNat + fl.length + 2) index 0

/-- Reference backward paren-matching scan, used to state when a candidate
definition site has a matching unmatched `(`: scanning the given tokens (the
tokens before the `)`, closest first), it returns the distance to the first
`(` seen with counter zero, counting a `)` up and a nested `(` down, exactly
as the loop of `parseFunctionDefinition` does. -/
def findOpen : List String → Nat → Option Nat
  | [], _ => none
  | t :: rest, pc =>
    if t = "(" ∧ pc = 0 then some 0
    else if t = "(" then (findOpen rest (pc - 1)).map (fun r => r + 1)
    else if t = ")" then (findOpen rest (pc + 1)).map (fun r => r + 1)
    else (findOpen rest pc).map (fun r => r + 1)

/-- Definition-line lookup of `findFunctions` (`flow.py` lines 524-528):
first `l` with `lineBreakIndexes[l] > index - 1` gives line `l - 1`, default
`0`. -/
def defLineNumber (index : Int) : List Nat → Nat → Int
  | [], _ => 0
  | b :: rest, l => if (b : Int) > index - 1 then (l : Int) - 1 else defLineNumber index rest (l + 1)

/-- Main loop of `findFunctions` (`flow.py` lines 495-532).  The traversal
list is the suffix of `fl` starting at `index`; `fl` itself is kept for the
lookbacks `fileList[index-1]`.  Note that, unlike `parseFunctionCalls`, the
long-comment toggles here do not consult `inString`. -/
def findFunctionsAux (pn : String) (fl : List String) (lbi : List Nat) :
    List String → Nat → Bool → Bool → List Node → Option (List Node)
  | [], _, _, _, acc => some acc
  | tok :: rest, index, inComment, inString, acc =>
    let inC1 := if tok = "@BEGINLONGCOMMENT@" then true else inComment
    let inC := if tok = "@ENDLONGCOMMENT@" then false else inC1
    let inS :=
      if ¬inC ∧ tok = "@\"@" ∧ pyGet? fl ((index : Int) - 1) ≠ some "@IGNOREQUOTE@" then !inString
      else inString
    if ¬inC ∧ ¬inS ∧ tok = "\x7b" ∧ pyGet? fl ((index : Int) - 1) = some ")" then
      let dln := defLineNumber (index : Int) lbi 0
      match parseFunctionDefinition pn fl ((index : Int) - 1) dln with
      | none => none
      | some optN => findFunctionsAux pn fl lbi rest (index + 1) inC inS (acc ++ optN.toList)
    else findFunctionsAux pn fl lbi rest (index + 1) inC inS acc

/-- `findFunctions` (`flow.py` lines 495-532): all `Node`s of one file, in
scan order; `none` models an uncaught `IndexError` from a nested parse. -/
def findFunctions (pn : String) (fl : List String) (lbi : List Nat) : Option (List Node) :=
  findFunctionsAux pn fl lbi fl 0 false false []

/-- `class subGraph` (`flow.py` lines 348-355): one source file's nodes. -/
structure subGraph where
  name : String
  includedNodes : List Node
  deriving DecidableEq

/-- The derived field `functionNamesDefinedInSubgraph` (`flow.py` lines
353-355). -/
def functionNamesDefinedInSubgraph (g : subGraph) : List String :=
  g.includedNodes.map Node.name

/-- The per-node `compressible` test of `subGraph.segregate` (`flow.py`
lines 370-377): a node stays compressible unless its name is called somewhere
in the file, or it calls a name defined in the file. -/
def segCompressible (g : subGraph) (node : Node) : Bool :=
  let functionsCalledInSubgraph :=
    dedupAux [] (g.includedNodes.foldl (fun a n => a ++ n.calledFunctions) [])
  if functionsCalledInSubgraph.contains node.name then false
  else if (node.calledFunctions.filter
      (fun c => (functionNamesDefinedInSubgraph g).contains c)).length > 0 then false
  else true

/-- `subGraph.segregate` (`flow.py` lines 357-382): split `includedNodes`
into `(nodesToCompress, nodesNOTtoCompress)`. -/
def segregate (g : subGraph) : List Node × List Node :=
  g.includedNodes.foldl
    (fun (st : List Node × List Node) node =>
      if segCompressible g node then (st.1 ++ [node], st.2) else (st.1, st.2 ++ [node]))
    ([], [])

/-- `createSubgraph` (`flow.py` lines 411-417). -/
def createSubgraph (content : List (List Char)) (subGraphName : String) : Option subGraph :=
  let fl := fileToList content
  (findFunctions subGraphName fl.1 fl.2).map (fun nodes => ⟨subGraphName, nodes⟩)

/-- `graphDirectory` (`flow.py` lines 41-57): one subgraph per directory
entry whose name contains the extension as a substring; the subgraph name is
the file name up to the first `.`. -/
def graphDirectory (files : List (String × List (List Char))) (fileExtension : String) :
    Option (List subGraph) :=
  files.foldl
    (fun acc f =>
      match acc with
      | none => none
      | some gs =>
        if findL fileExtension.data f.1.data ≠ -1 then
          match createSubgraph f.2 (String.mk ((pySplit ".".data f.1.data).headD [])) with
          | none => none
          | some g => some (gs ++ [g])
        else some gs)
    (some [])

/-- The node identifier used in DOT output: `name` or `name_L<line>`
depending on the `--linenumbers` flag. -/
def nodeRef (ln : Bool) (n : Node) : String :=
  if ln then n.name ++ "_L" ++ toString n.line else n.name

/-- A node declaration line (`flow.py` lines 113-116 / 156-159 / 199-202). -/
def nodeDeclLine (ln : Bool) (fillColor : String) (n : Node) : String :=
  nodeRef ln n ++ " [style=\"filled\",fillcolor=" ++ fillColor ++ "];"

/-- The tome lookup of `translateSubgraph` (`flow.py` lines 120-129):
first tome entry of a *different* subgraph defining `fc`; `some headName`
iff `foundInTome`. -/
def tomeFind (tome : List (String × List String)) (selfName fc : String) : Option String :=
  match tome with
  | [] => none
  | e :: rest =>
    if e.1 = selfName then tomeFind rest selfName fc
    else if e.2.contains fc then some e.1
    else tomeFind rest selfName fc

/-- One call of the per-node call-edge loop of the clustered branch of
`translateSubgraph` (`flow.py` lines 118-147 and the identical copy at
161-190).  The state is `(addEdgeBetweenCluster, tailLinelist)`. -/
def callEdgeStep (gname : String) (tome : List (String × List String)) (ln : Bool) (n : Node)
    (st : Bool × List String) (fc : String) : Bool × List String :=
  if fc.length > 0 then
    match tomeFind tome gname fc with
    | some headName =>
      if st.1 then
        (false, st.2 ++
          [if ln then
            fc ++ " -> " ++ nodeRef true n ++ " [lhead=cluster_" ++ headName ++
              ",ltail=cluster_" ++ gname ++ "];"
           else
            fc ++ " -> " ++ nodeRef false n ++ " [ltail=cluster_" ++ headName ++
              ",lhead=cluster_" ++ gname ++ "];"])
      else st
    | none => (st.1, st.2 ++ [fc ++ " -> " ++ nodeRef ln n ++ ";"])
  else st

/-- The full call-edge loop for one node. -/
def callEdges (gname : String) (tome : List (String × List String)) (ln : Bool) (n : Node) :
    Bool × List String → Bool × List String :=
  fun st => n.calledFunctions.foldl (callEdgeStep gname tome ln n) st

/-- One step of the node loops of the clustered branch: declaration line plus
all call edges of one node (`flow.py` lines 110-147 and 155-190). -/
def clusterNodeStep (gname : String) (tome : List (String × List String)) (ln : Bool)
    (fillColor : String) (st : List String × Bool × List String) (node : Node) :
    List String × Bool × List String :=
  let tl := callEdges gname tome ln node st.2
  (st.1 ++ [nodeDeclLine ln fillColor node], tl.1, tl.2)

/-- One compressed-row block of the clustered branch (`flow.py` lines
103-152): the row header, the row's grid nodes with their call edges, and the
closing brace. -/
def clusterRowStep (gname : String) (tome : List (String × List String)) (ln : Bool)
    (fillColor : String) (nodesToCompress : List Node) (clusterWidth : Nat)
    (st : List String × Bool × List String) (row : Nat) :
    List String × Bool × List String :=
  let rowNodes := (nodesToCompress.drop (row * (clusterWidth + 1))).take (clusterWidth + 1)
  let rowStart := st.1 ++
    ["subgraph newRow" ++ toString row ++ "_" ++ gname ++ " \x7b",
     "rank=\"same\";",
     gname ++ "_row" ++ toString row ++ " [fontsize=1.0,style=\"invis\"];"]
  let inner :=
    rowNodes.foldl (clusterNodeStep gname tome ln fillColor) (rowStart, st.2.1, st.2.2)
  (inner.1 ++ ["\x7d"], inner.2.1, inner.2.2)

/-- `translateSubgraph` (`flow.py` lines 60-214): DOT text for one subgraph,
as `(subLinelist, tailLinelist)`.  `fillColor` stands for the string produced
by `randomColorGenerator`, injected as a parameter; `ln` is the global
`lineNumbers` flag. -/
def translateSubgraph (g : subGraph) (subgraphNumber : Nat) (cluster : Bool)
    (fillColor : String) (tome : List (String × List String)) (ln : Bool) :
    List String × List String :=
  if cluster then
    let header :=
      ["subgraph cluster_" ++ g.name ++ " \x7b",
       "label=" ++ "\"" ++ g.name ++ "\";",
       "style=\"filled\";",
       "fillcolor=\"#f0f0f0\";",
       "clusterrank=\"local\""]
    let seg := segregate g
    let nodesToCompress := seg.1
    let nodesNOTtoCompress := seg.2
    let numberOfNodesToCompress := nodesToCompress.length
    let h0 := Nat.sqrt numberOfNodesToCompress
    let cluserHeight := if h0 = 0 then 1 else h0
    let clusterWidth := numberOfNodesToCompress / cluserHeight + 1
    let afterRows :=
      (List.range cluserHeight).foldl
        (clusterRowStep g.name tome ln fillColor nodesToCompress clusterWidth)
        (header, true, [])
    let afterNC :=
      nodesNOTtoCompress.foldl (clusterNodeStep g.name tome ln fillColor) afterRows
    let withRowEdges := afterNC.1 ++
      (List.range (cluserHeight - 1)).map
        (fun row =>
          g.name ++ "_row" ++ toString row ++ " -> " ++ g.name ++ "_row" ++ toString (row + 1) ++
            " [style=\"invis\"];")
    (withRowEdges ++ ["\x7d"], afterNC.2.2)
  else
    let st :=
      g.includedNodes.foldl
        (fun (st : List String × List String) node =>
          (st.1 ++ [nodeDeclLine ln fillColor node],
           st.2 ++ node.calledFunctions.foldl
             (fun acc fc =>
               if fc.length > 0 then acc ++ [fc ++ " -> " ++ nodeRef ln node ++ ";"] else acc)
             []))
        (["subgraph nonCluster_" ++ toString subgraphNumber ++ " \x7b"], [])
    (st.1 ++ ["\x7d"], st.2)

/-- Source name of an edge line, as computed by the `--exclusive` filter
(`flow.py` line 272): remove spaces, split on `->`, take the first piece. -/
def edgeSource (line : String) : String :=
  String.mk ((pySplit "->".data (line.data.filter (fun c => c ≠ ' '))).headD [])

/-- The `--exclusive` deletion loop (`flow.py` lines 271-276): iterate from
the last index down and delete every edge whose source is not defined in the
directory, here written as the equivalent right fold. -/
def deleteExternal (functionsDefinedInDirectory : List String) (edges : List String) :
    List String :=
  edges.foldr
    (fun e acc => if functionsDefinedInDirectory.contains (edgeSource e) then e :: acc else acc)
    []

/-- One iteration of the per-subgraph loop of `translateDirectory`
(`flow.py` lines 249-259): extend the accumulated output lines, edge lines,
colour-key lines and directory node list with subgraph number `ig.1`,
subgraph `ig.2`. -/
def dirStep (fileExtension : String) (cluster ln : Bool) (colors : Nat → String)
    (tome : List (String × List String))
    (st : List String × List String × List String × List Node) (ig : Nat × subGraph) :
    List String × List String × List String × List Node :=
  let fillColor := colors ig.1
  let colorKeyEntry := ig.2.name ++ "_" ++ String.mk (fileExtension.data.drop 1) ++
    " [style=\"filled\", shape=rectangle, fillcolor=" ++ fillColor ++ "];"
  let tr := translateSubgraph ig.2 ig.1 cluster fillColor tome ln
  (st.1 ++ tr.1, st.2.1 ++ tr.2, st.2.2.1 ++ [colorKeyEntry], st.2.2.2 ++ ig.2.includedNodes)

/-- `translateDirectory` (`flow.py` lines 217-287), up to file output: the
full list of DOT lines.  `colors` injects the per-subgraph results of
`randomColorGenerator`; `ln` is the global `lineNumbers` flag. -/
def translateDirectory (files : List (String × List (List Char))) (fileExtension : String)
    (cluster excludeExternalFunctions ln : Bool) (colors : Nat → String) :
    Option (List String) :=
  match graphDirectory files fileExtension with
  | none => none
  | some subgraphs =>
    let headerLines :=
      ["digraph \x7b", "overlap=false;", "concentrate=true;", "compound=true;", "rankdir=\"BT\";"]
    let tome := subgraphs.map (fun g => (g.name, functionNamesDefinedInSubgraph g))
    let st :=
      subgraphs.enum.foldl (dirStep fileExtension cluster ln colors tome)
        (headerLines, [], ["subgraph cluster_key\x7b", "label=\"Key\";"], [])
    let endLinelist :=
      if excludeExternalFunctions then deleteExternal (st.2.2.2.map Node.name) st.2.1
      else st.2.1
    some (st.1 ++ (st.2.2.1 ++ ["\x7d"]) ++ endLinelist ++ ["\x7d"])

/-- The token sequence the tokenizer produces for `int foo(){ bar(); }`. -/
def fooDefToks : List String :=
  ["int", "foo", "(", ")", "\x7b", "bar", "(", ")", ";", "\x7d"]

/-- The token sequence the tokenizer produces for `void bar(){}`. -/
def barDefToks : List String :=
  ["void", "bar", "(", ")", "\x7b", "\x7d"]

/-- The two-file example directory of the end-to-end property:
`a.cpp` containing `void a(){ b(); }` and `b.cpp` containing `void b(){}`. -/
def exampleFilesAB : List (String × List (List Char)) :=
  [("a.cpp", ["void a()\x7b b(); \x7d".data]), ("b.cpp", ["void b()\x7b\x7d".data])]

/-- A fixed colour choice standing for the outputs of
`randomColorGenerator` (the claims compare runs at the same colours). -/
def constColor : Nat → String := fun _ => "\"#aaaaaa\""

/-- Join a token list with single spaces (the claim's normal form of a
token sequence). -/
def joinSp : List (List Char) → List Char
  | [] => []
  | [t] => t
  | t :: u :: ts => t ++ ' ' :: joinSp (u :: ts)

/-- The characters acted on by `processLine`: the space separator, the first
characters of all replacement patterns of the chain, and the whitespace the
final split consumes. -/
def specialChars : List Char :=
  [' ', '/', '(', ')', '\x7b', '\x7d', '[', ']', ',', '\\', '\t', '\n', '"', '*', '=', '-',
   '+', '>', '<']

/-- A token untouched by every replacement of `processLine`: nonempty and
free of all special characters. -/
def cleanTok (t : List Char) : Prop :=
  t ≠ [] ∧ ∀ c ∈ t, c ∉ specialChars

/-- The single-character padding tokens `processLine` itself produces by
space-padding. -/
def padToks : List (List Char) :=
  [['('], [')'], ['\x7b'], ['\x7d'], ['['], [']'], [','], ['*'], ['='], ['-'], ['+'], ['>'],
   ['<']]

/-- The padding/sentinel replacement chain of `processLine` after the
single-line-comment handling (`l2` to `l20` of the source chain). -/
def perTok (s : List Char) : List Char :=
  let l2 := replaceL "(".data " ( ".data s
  let l3 := replaceL ")".data " ) ".data l2
  let l4 := replaceL "\x7b".data " \x7b ".data l3
  let l5 := replaceL "\x7d".data " \x7d ".data l4
  let l6 := replaceL "[".data " [ ".data l5
  let l7 := replaceL "]".data " ] ".data l6
  let l8 := replaceL ",".data " , ".data l7
  let l9 := replaceL "\\".data " @IGNOREQUOTE@ ".data l8
  let l10 := replaceL "\t".data "".data l9
  let l11 := replaceL "\n".data "".data l10
  let l12 := replaceL "\"".data " @\"@ ".data l11
  let l13 := replaceL "/*".data " @BEGINLONGCOMMENT@ ".data l12
  let l14 := replaceL "*/".data " @ENDLONGCOMMENT@ ".data l13
  let l15 := replaceL "*".data " * ".data l14
  let l16 := replaceL "=".data " = ".data l15
  let l17 := replaceL "-".data " - ".data l16
  let l18 := replaceL "+".data " + ".data l17
  let l19 := replaceL ">".data " > ".data l18
  replaceL "<".data " < ".data l19

/-- The (caller node, callee name) pairs of one node, in iteration order. -/
def nodePairs (n : Node) : List (Node × String) :=
  n.calledFunctions.map (fun fc => (n, fc))

/-- All (caller node, callee name) pairs visited by the clustered branch of
`translateSubgraph`, in its iteration order: the compressed nodes (as
arranged into rows, which preserves their order) and then the uncompressed
nodes. -/
def callPairs (g : subGraph) : List (Node × String) :=
  ((segregate g).1 ++ (segregate g).2).flatMap nodePairs

/-- A pair producing a cross-cluster edge: nonempty callee found in another
subgraph's tome entry. -/
def tomeHit (gname : String) (tome : List (String × List String)) (p : Node × String) : Prop :=
  p.2.length > 0 ∧ tomeFind tome gname p.2 ≠ none

/-- The collapsed cross-cluster edge line built for a pair (`flow.py` lines
131-141 and 174-184). -/
def collapsedEdge (gname : String) (tome : List (String × List String)) (ln : Bool)
    (p : Node × String) : String :=
  let headName := (tomeFind tome gname p.2).getD ""
  if ln then
    p.2 ++ " -> " ++ nodeRef true p.1 ++ " [lhead=cluster_" ++ headName ++
      ",ltail=cluster_" ++ gname ++ "];"
  else
    p.2 ++ " -> " ++ nodeRef false p.1 ++ " [ltail=cluster_" ++ headName ++
      ",lhead=cluster_" ++ gname ++ "];"

/-- The plain (non-collapsed) edge lines of a pair list: one line per
nonempty callee *not* found in the tome, in order. -/
def plainEdges (gname : String) (tome : List (String × List String)) (ln : Bool) :
    List (Node × String) → List String
  | [] => []
  | p :: ps =>
    (if p.2.length > 0 ∧ tomeFind tome gname p.2 = none
     then [p.2 ++ " -> " ++ nodeRef ln p.1 ++ ";"] else []) ++ plainEdges gname tome ln ps

/-- The tail-line state machine of the clustered branch, run over a pair
list: the `addEdgeBetweenCluster` flag starts true, the first tome hit emits
the collapsed edge and clears it, later hits are dropped, tome misses emit
plain edges. -/
def collapseRun (gname : String) (tome : List (String × List String)) (ln : Bool) :
    Bool → List (Node × String) → Bool × List String
  | flag, [] => (flag, [])
  | flag, p :: ps =>
    if p.2.length > 0 then
      match tomeFind tome gname p.2 with
      | some _ =>
        if flag then
          ((collapseRun gname tome ln false ps).1,
           collapsedEdge gname tome ln p :: (collapseRun gname tome ln false ps).2)
        else collapseRun gname tome ln flag ps
      | none =>
        ((collapseRun gname tome ln flag ps).1,
         (p.2 ++ " -> " ++ nodeRef ln p.1 ++ ";") :: (collapseRun gname tome ln flag ps).2)
    else collapseRun gname tome ln flag ps

end FunctionFlow

namespace FunctionFlow

/-- C2: the tokenizer is claimed to discard everything from a `//` to the end
of the line whenever no `/*` occurs earlier on the line.  In the code the
guard `not (currentLine.find("/*") < index)` misfires when the line contains
no `/*` at all (`find` returns `-1 < index`), so the comment suffix is kept:
on the line `int x ; // fooCall ( )` every token after `//` survives, where
the claim requires the output `[int, x, ;]`. -/
theorem c2_comment_suffix_kept :
    (fileToList ["int x ; // fooCall ( )".data]).1 =
      ["int", "x", ";", "//", "fooCall", "(", ")"] := by
  decide

/-- C3: a malformed file is claimed to produce a reported hard parse error
(`MalformedSourceError`), never an unhandled crash and never silently empty
output.  The code has no such error path: an unterminated block comment
yields a subgraph with an empty node list and no error at all, and an
unclosed function body makes `parseFunctionCalls` run past the end of the
token list, an uncaught `IndexError` (embedded as `none`). -/
theorem c3_malformed_not_reported :
    createSubgraph ["/* void a()\x7b\x7d".data] "f" = some ⟨"f", []⟩ ∧
    createSubgraph ["void a()\x7b".data] "f" = none := by
  constructor
  · decide
  · decide

/-- C5 counterexample: with clustering enabled and the exclusive filter set,
the cross-file edge from `b` to `a` still survives (as the collapsed cluster
edge), contradicting the claim that it survives only if clustering is
disabled. -/
theorem c5_counterexample :
    "b -> a [ltail=cluster_b,lhead=cluster_a];" ∈
      (translateDirectory exampleFilesAB ".cpp" true true false constColor).getD [] := by
  decide

/-- C5 amended: on the two-file directory, with the exclusive filter unset the
edge list contains the `b -> a` edge (written `calledFunction -> callingNode`,
arrow from the called to the calling function): as `b -> a;` without
clustering and as the collapsed cluster edge with clustering.  With the
exclusive filter set, the cross-file edge survives in BOTH modes, because its
source `b` is defined in the directory: the filter never removes it. -/
theorem c5_amended :
    "b -> a;" ∈ (translateDirectory exampleFilesAB ".cpp" false false false constColor).getD [] ∧
    "b -> a [ltail=cluster_b,lhead=cluster_a];" ∈
      (translateDirectory exampleFilesAB ".cpp" true false false constColor).getD [] ∧
    "b -> a;" ∈ (translateDirectory exampleFilesAB ".cpp" false true false constColor).getD [] ∧
    "b -> a [ltail=cluster_b,lhead=cluster_a];" ∈
      (translateDirectory exampleFilesAB ".cpp" true true false constColor).getD [] := by
  refine ⟨?_, ?_, ?_, ?_⟩ <;> decide

/-- Generic shape of the `segregate` fold: it partitions the list by the
classifying predicate, preserving order. -/
theorem foldl_partition (p : Node → Bool) :
    ∀ (l : List Node) (a b : List Node),
      l.foldl
        (fun (st : List Node × List Node) node =>
          if p node then (st.1 ++ [node], st.2) else (st.1, st.2 ++ [node])) (a, b)
      = (a ++ l.filter p, b ++ l.filter (fun n => !(p n)))
  | [], a, b => by simp
  | x :: xs, a, b => by
    by_cases h : p x
    · simp only [List.foldl_cons, h, if_pos]
      rw [foldl_partition p xs]
      simp [h]
    · simp only [List.foldl_cons, h, if_neg]
      rw [foldl_partition p xs]
      simp [h]

/-- `List.contains` agrees with membership for strings. -/
theorem contains_iff_mem (l : List String) (x : String) : l.contains x = true ↔ x ∈ l := by
  constructor
  · intro h
    exact List.mem_of_elem_eq_true h
  · intro h
    exact List.elem_eq_true_of_mem h

/-- Membership in `dedupAux`. -/
theorem mem_dedupAux : ∀ (seen l : List String) (x : String),
    x ∈ dedupAux seen l ↔ x ∈ l ∧ x ∉ seen
  | _, [], _ => by simp [dedupAux]
  | seen, y :: rest, x => by
    simp only [dedupAux]
    by_cases h : seen.contains y = true
    · rw [if_pos h, mem_dedupAux]
      rw [contains_iff_mem] at h
      simp only [List.mem_cons]
      constructor
      · rintro ⟨hx, hs⟩
        exact ⟨Or.inr hx, hs⟩
      · rintro ⟨rfl | hx, hs⟩
        · exact absurd h hs
        · exact ⟨hx, hs⟩
    · rw [if_neg h, List.mem_cons, mem_dedupAux]
      rw [contains_iff_mem] at h
      simp only [List.mem_cons]
      constructor
      · rintro (rfl | ⟨hx, hs⟩)
        · exact ⟨Or.inl rfl, fun hx => h hx⟩
        · refine ⟨Or.inr hx, fun hxs => ?_⟩
          exact hs (Or.inr hxs)
      · rintro ⟨rfl | hx, hs⟩
        · exact Or.inl rfl
        · by_cases hxy : x = y
          · exact Or.inl hxy
          · refine Or.inr ⟨hx, fun hxs => ?_⟩
            rcases hxs with h2 | h2
            · exact hxy h2
            · exact hs h2

/-- Membership in the called-functions accumulation of `segregate`. -/
theorem mem_foldl_calls : ∀ (l : List Node) (acc : List String) (x : String),
    (x ∈ l.foldl (fun a n => a ++ n.calledFunctions) acc ↔
      x ∈ acc ∨ ∃ m ∈ l, x ∈ m.calledFunctions)
  | [], acc, x => by simp
  | n :: rest, acc, x => by
    rw [List.foldl_cons, mem_foldl_calls]
    simp only [List.mem_append, List.mem_cons]
    constructor
    · rintro ((h | h) | ⟨m, hm, hx⟩)
      · exact Or.inl h
      · exact Or.inr ⟨n, Or.inl rfl, h⟩
      · exact Or.inr ⟨m, Or.inr hm, hx⟩
    · rintro (h | ⟨m, rfl | hm, hx⟩)
      · exact Or.inl (Or.inl h)
      · exact Or.inl (Or.inr hx)
      · exact Or.inr ⟨m, hm, hx⟩

/-- The `compressible` test fails exactly under the conditions of the claim. -/
theorem segCompressible_eq_false (g : subGraph) (n : Node) :
    segCompressible g n = false ↔
      (∃ m ∈ g.includedNodes, n.name ∈ m.calledFunctions) ∨
      (∃ c ∈ n.calledFunctions, c ∈ functionNamesDefinedInSubgraph g) := by
  simp only [segCompressible]
  by_cases h1 :
      (dedupAux [] (g.includedNodes.foldl (fun a n => a ++ n.calledFunctions) [])).contains
        n.name = true
  · rw [if_pos h1]
    rw [contains_iff_mem, mem_dedupAux, mem_foldl_calls] at h1
    simp only [List.not_mem_nil, false_or, and_true, not_false_iff] at h1
    simp only [eq_self_iff_true, true_iff]
    exact Or.inl h1
  · rw [if_neg h1]
    by_cases h2 :
        0 < (n.calledFunctions.filter
          (fun c => (functionNamesDefinedInSubgraph g).contains c)).length
    · rw [if_pos h2]
      simp only [eq_self_iff_true, true_iff]
      obtain ⟨c, hcmem⟩ := List.exists_mem_of_length_pos h2
      obtain ⟨hc1, hc2⟩ := List.mem_filter.mp hcmem
      exact Or.inr ⟨c, hc1, (contains_iff_mem _ _).mp hc2⟩
    · rw [if_neg h2]
      constructor
      · intro h
        exact absurd h (by simp)
      · rintro (⟨m, hm, hx⟩ | ⟨c, hc, hcm⟩)
        · exfalso
          apply h1
          rw [contains_iff_mem, mem_dedupAux, mem_foldl_calls]
          exact ⟨Or.inr ⟨m, hm, hx⟩, List.not_mem_nil _⟩
        · exfalso
          apply h2
          refine List.length_pos_of_mem (List.mem_filter.mpr ⟨hc, ?_⟩)
          exact (contains_iff_mem _ _).mpr hcm

/-- The two components of `segregate` are the two filters of `includedNodes`. -/
theorem segregate_eq (g : subGraph) :
    segregate g =
      (g.includedNodes.filter (segCompressible g),
       g.includedNodes.filter (fun n => !(segCompressible g n))) := by
  unfold segregate
  rw [foldl_partition]
  simp

/-- C7: `segregate` places each node of `includedNodes` into exactly one of
`nodesToCompress` and `nodesNOTtoCompress` (per-node counts add up and the
two lists are disjoint), and a node of the subgraph lands in
`nodesNOTtoCompress` iff its name occurs in the union of the callee sets of
the file's nodes, or its own callee set meets the file's defined-name set. -/
theorem c7_segregate_partition (g : subGraph) :
    (∀ n : Node,
      ((segregate g).1.count n + (segregate g).2.count n) = g.includedNodes.count n) ∧
    (∀ n : Node, n ∈ (segregate g).1 → n ∉ (segregate g).2) ∧
    (∀ n ∈ g.includedNodes,
      (n ∈ (segregate g).2 ↔
        (∃ m ∈ g.includedNodes, n.name ∈ m.calledFunctions) ∨
        (∃ c ∈ n.calledFunctions, c ∈ functionNamesDefinedInSubgraph g))) := by
  rw [segregate_eq]
  refine ⟨?_, ?_, ?_⟩
  · intro n
    by_cases h : segCompressible g n = true
    · rw [List.count_filter (p := segCompressible g) h]
      have hnot : n ∉ g.includedNodes.filter (fun m => !(segCompressible g m)) := by
        intro hmem
        have := (List.mem_filter.mp hmem).2
        simp [h] at this
      rw [List.count_eq_zero.mpr hnot]
      omega
    · have hb : segCompressible g n = false := Bool.eq_false_iff.mpr h
      have hf : (fun m => !(segCompressible g m)) n = true := by simp [hb]
      rw [List.count_filter (p := fun m => !(segCompressible g m)) hf]
      have hnot : n ∉ g.includedNodes.filter (segCompressible g) := by
        intro hmem
        exact h (List.mem_filter.mp hmem).2
      rw [List.count_eq_zero.mpr hnot]
      omega
  · intro n h1 h2
    have ha := (List.mem_filter.mp h1).2
    have hb := (List.mem_filter.mp h2).2
    simp only [Bool.not_eq_true'] at hb
    rw [ha] at hb
    exact absurd hb (by decide)
  · intro n hn
    rw [← segCompressible_eq_false]
    constructor
    · intro h
      have := (List.mem_filter.mp h).2
      simpa using this
    · intro h
      refine List.mem_filter.mpr ⟨hn, ?_⟩
      simp [h]

/-- C7 witness: in a one-node subgraph whose node calls only an undefined
name, the node is compressible, hence not in `nodesNOTtoCompress`. -/
theorem c7_witness :
    (⟨"a", "a", 0, none, [], ["b"]⟩ : Node) ∉
      (segregate ⟨"a", [⟨"a", "a", 0, none, [], ["b"]⟩]⟩).2 :=
  (c7_segregate_partition _).2.1 _ (by decide)

/-- The reverse-iteration deletion loop of `--exclusive` equals a filter. -/
theorem deleteExternal_eq_filter (d : List String) :
    ∀ es, deleteExternal d es = es.filter (fun e => d.contains (edgeSource e))
  | [] => rfl
  | e :: es => by
    have ih := deleteExternal_eq_filter d es
    simp only [deleteExternal, List.foldr_cons, List.filter_cons] at ih ⊢
    rw [ih]

/-- The directory-node component of the `translateDirectory` fold is the
concatenation of the subgraphs' node lists. -/
theorem dirFold_nodes (fileExtension : String) (cluster ln : Bool) (colors : Nat → String)
    (tome : List (String × List String)) :
    ∀ (l : List (Nat × subGraph)) (init : List String × List String × List String × List Node),
      (l.foldl (dirStep fileExtension cluster ln colors tome) init).2.2.2 =
        init.2.2.2 ++ (l.map (fun ig => ig.2.includedNodes)).flatten
  | [], init => by simp
  | ig :: rest, init => by
    rw [List.foldl_cons, dirFold_nodes fileExtension cluster ln colors tome rest]
    simp [dirStep]

/-- C10: the exclusive/external-function filter changes only the edge section
of the emitted graph description.  For the same directory, flags and colour
choices, the two runs share the whole non-edge prefix (global attributes,
per-file blocks, invisible row edges, legend) and the closing terminator, and
the filtered edge list is exactly the unfiltered one with every edge whose
source name is undefined in the directory removed, in order. -/
theorem c10_exclusive_frame (files : List (String × List (List Char))) (ext : String)
    (cluster ln : Bool) (colors : Nat → String) (gs : List subGraph)
    (hg : graphDirectory files ext = some gs) :
    ∃ (prefixLines edges : List String),
      translateDirectory files ext cluster false ln colors =
        some (prefixLines ++ edges ++ ["\x7d"]) ∧
      translateDirectory files ext cluster true ln colors =
        some (prefixLines ++
          edges.filter
            (fun e =>
              (((gs.map (fun g => g.includedNodes)).flatten.map Node.name).contains
                (edgeSource e))) ++ ["\x7d"]) := by
  unfold translateDirectory
  rw [hg]
  simp only
  have henum : gs.enum.map (fun (ig : Nat × subGraph) => ig.2.includedNodes) =
      gs.map (fun g => g.includedNodes) := by
    rw [show (fun (ig : Nat × subGraph) => ig.2.includedNodes) =
      (fun (g : subGraph) => g.includedNodes) ∘ Prod.snd from rfl]
    rw [← List.map_map, List.enum_map_snd]
  refine ⟨(gs.enum.foldl
      (dirStep ext cluster ln colors (gs.map (fun g => (g.name, functionNamesDefinedInSubgraph g))))
      (["digraph \x7b", "overlap=false;", "concentrate=true;", "compound=true;", "rankdir=\"BT\";"],
        [], ["subgraph cluster_key\x7b", "label=\"Key\";"], [])).1 ++
      ((gs.enum.foldl
      (dirStep ext cluster ln colors (gs.map (fun g => (g.name, functionNamesDefinedInSubgraph g))))
      (["digraph \x7b", "overlap=false;", "concentrate=true;", "compound=true;", "rankdir=\"BT\";"],
        [], ["subgraph cluster_key\x7b", "label=\"Key\";"], [])).2.2.1 ++ ["\x7d"]),
    (gs.enum.foldl
      (dirStep ext cluster ln colors (gs.map (fun g => (g.name, functionNamesDefinedInSubgraph g))))
      (["digraph \x7b", "overlap=false;", "concentrate=true;", "compound=true;", "rankdir=\"BT\";"],
        [], ["subgraph cluster_key\x7b", "label=\"Key\";"], [])).2.1, ?_, ?_⟩
  · rw [if_neg (show ¬(false = true) by decide)]
  · rw [if_pos trivial, deleteExternal_eq_filter, dirFold_nodes, henum, List.nil_append]

/-- Every name accumulated by the call-scanner loop comes from a token that
passed the denylist, via the qualifier-drop-and-sanitize transformation. -/
theorem parseFunctionCallsAux_sound (fl : List String) :
    ∀ (fuel : Nat) (ti : Int) (bc : Nat) (inC inS : Bool) (acc res : List String),
      parseFunctionCallsAux fl fuel ti bc inC inS acc = some res →
      (∀ c ∈ acc, ∃ t, isNonStandardFunction t = true ∧ c = recordedCallee t) →
      ∀ c ∈ res, ∃ t, isNonStandardFunction t = true ∧ c = recordedCallee t
  | 0, ti, bc, inC, inS, acc, res => by
    intro h
    exact absurd h (by simp [parseFunctionCallsAux])
  | fuel + 1, ti, bc, inC, inS, acc, res => by
    intro h hacc
    rw [parseFunctionCallsAux] at h
    cases hpg : pyGet? fl (ti + 1) with
    | none =>
      rw [hpg] at h
      simp at h
    | some tok =>
      rw [hpg] at h
      dsimp only at h
      repeat' split at h
      all_goals
        first
        | exact Option.noConfusion h
        | (injection h with h2
           cases h2
           exact hacc)
        | exact parseFunctionCallsAux_sound fl fuel _ _ _ _ _ _ h hacc
        | (rename_i hstd
           refine parseFunctionCallsAux_sound fl fuel _ _ _ _ _ _ h ?_
           intro c hc
           rcases List.mem_append.mp hc with hc2 | hc2
           · exact hacc c hc2
           · cases List.mem_singleton.mp hc2
             exact ⟨_, hstd, rfl⟩)

/-- Soundness of `parseFunctionCalls` for the empty accumulator. -/
theorem parseFunctionCalls_sound (fl : List String) (si : Int) (res : List String)
    (h : parseFunctionCalls fl si = some res) :
    ∀ c ∈ res, ∃ t, isNonStandardFunction t = true ∧ c = recordedCallee t :=
  parseFunctionCallsAux_sound fl _ _ _ _ _ _ _ h (by simp)

/-- Soundness of `headerExtract`: the produced node only records callees that
passed the denylist. -/
theorem headerExtract_sound (pn : String) (fl : List String) (ti index dln : Int) (n : Node)
    (h : headerExtract pn fl ti index dln = some (some n)) :
    ∀ c ∈ n.calledFunctions, ∃ t, isNonStandardFunction t = true ∧ c = recordedCallee t := by
  unfold headerExtract at h
  cases hprev : pyGet? fl (ti - 1) with
  | none =>
    rw [hprev] at h
    exact Option.noConfusion h
  | some prev =>
    rw [hprev] at h
    dsimp only at h
    repeat' split at h
    all_goals
      first
      | exact Option.noConfusion h
      | (injection h with h2
         exact Option.noConfusion h2)
      | (rename_i calls hcalls
         injection h with h2
         injection h2 with h3
         cases h3
         intro c hcmem
         exact parseFunctionCalls_sound fl _ _ hcalls c ((mem_dedupAux [] calls c).mp hcmem).1)

/-- Soundness of the backward header scan. -/
theorem parseFunctionDefinitionAux_sound (pn : String) (fl : List String) (index dln : Int) :
    ∀ (fuel : Nat) (tempIndex : Int) (pc : Nat) (n : Node),
      parseFunctionDefinitionAux pn fl index dln fuel tempIndex pc = some (some n) →
      ∀ c ∈ n.calledFunctions, ∃ t, isNonStandardFunction t = true ∧ c = recordedCallee t
  | 0, tempIndex, pc, n => by
    intro h
    exact absurd h (by simp [parseFunctionDefinitionAux])
  | fuel + 1, tempIndex, pc, n => by
    intro h
    rw [parseFunctionDefinitionAux] at h
    cases hpg : pyGet? fl (tempIndex - 1) with
    | none =>
      rw [hpg] at h
      exact Option.noConfusion h
    | some tok =>
      rw [hpg] at h
      dsimp only at h
      repeat' split at h
      all_goals
        first
        | exact headerExtract_sound pn fl _ _ _ n h
        | exact parseFunctionDefinitionAux_sound pn fl index dln fuel _ _ n h

/-- Soundness of `parseFunctionDefinition`. -/
theorem parseFunctionDefinition_sound (pn : String) (fl : List String) (index dln : Int)
    (n : Node) (h : parseFunctionDefinition pn fl index dln = some (some n)) :
    ∀ c ∈ n.calledFunctions, ∃ t, isNonStandardFunction t = true ∧ c = recordedCallee t :=
  parseFunctionDefinitionAux_sound pn fl index dln _ _ _ n h

/-- Soundness of the `findFunctions` traversal. -/
theorem findFunctionsAux_sound (pn : String) (fl : List String) (lbi : List Nat) :
    ∀ (trav : List String) (idx : Nat) (inC inS : Bool) (acc res : List Node),
      findFunctionsAux pn fl lbi trav idx inC inS acc = some res →
      (∀ n ∈ acc, ∀ c ∈ n.calledFunctions,
        ∃ t, isNonStandardFunction t = true ∧ c = recordedCallee t) →
      ∀ n ∈ res, ∀ c ∈ n.calledFunctions,
        ∃ t, isNonStandardFunction t = true ∧ c = recordedCallee t
  | [], idx, inC, inS, acc, res => by
    intro h hacc
    rw [findFunctionsAux] at h
    injection h with h2
    cases h2
    exact hacc
  | tok :: rest, idx, inC, inS, acc, res => by
    intro h hacc
    rw [findFunctionsAux] at h
    dsimp only at h
    repeat' split at h
    all_goals
      first
      | exact Option.noConfusion h
      | exact findFunctionsAux_sound pn fl lbi rest _ _ _ _ _ h hacc
      | (rename_i optN hopt
         refine findFunctionsAux_sound pn fl lbi rest _ _ _ _ _ h ?_
         intro n hn
         rcases List.mem_append.mp hn with hn2 | hn2
         · exact hacc n hn2
         · cases optN with
           | none => simp at hn2
           | some m =>
             have hm := List.mem_singleton.mp hn2
             subst hm
             exact parseFunctionDefinition_sound pn fl _ _ _ hopt)

/-- C4 amended: every recorded callee of every produced Definition comes from
a token that passes `isNonStandardFunction` (so a denylisted keyword standing
immediately before `(` is itself never recorded); the recorded name is that
token after dropping the qualifier before its last `.` and sanitizing, and
THAT transformed name can be denylisted (see the counterexample). -/
theorem c4_amended (pn : String) (fl : List String) (lbi : List Nat) (nodes : List Node)
    (h : findFunctions pn fl lbi = some nodes) :
    ∀ n ∈ nodes, ∀ c ∈ n.calledFunctions,
      ∃ t, isNonStandardFunction t = true ∧ c = recordedCallee t :=
  findFunctionsAux_sound pn fl lbi fl 0 false false [] nodes h (by simp)

/-- C4 counterexample: a Definition produced from a token stream whose
`calledFunctions` contains the denylisted keyword `if` (the token `a.if`
passes the denylist, and its recorded form is `if`). -/
theorem c4_counterexample :
    (findFunctions "f" ["void", "f", "(", ")", "\x7b", "a.if", "(", ")", "\x7d"] [0]).map
        (fun ns => ns.map Node.calledFunctions) = some [["if"]] ∧
    isNonStandardFunction "if" = false := by
  exact ⟨by decide, by decide⟩

/-- C4 witness: instantiating the amended theorem on a concrete stream. -/
theorem c4_witness :
    ∃ t, isNonStandardFunction t = true ∧ "foo" = recordedCallee t :=
  c4_amended "f" ["void", "bar", "(", ")", "\x7b", "foo", "(", ")", ";", "\x7d"] [0]
    [⟨"bar", "f", 0, none, [], ["foo"]⟩] (by decide)
    ⟨"bar", "f", 0, none, [], ["foo"]⟩ (by decide) "foo" (by decide)


/-- `collapseRun` splits over appends, threading the flag. -/
theorem collapseRun_append (gname : String) (tome : List (String × List String)) (ln : Bool) :
    ∀ (ps qs : List (Node × String)) (flag : Bool),
      collapseRun gname tome ln flag (ps ++ qs)
        = ((collapseRun gname tome ln (collapseRun gname tome ln flag ps).1 qs).1,
           (collapseRun gname tome ln flag ps).2
             ++ (collapseRun gname tome ln (collapseRun gname tome ln flag ps).1 qs).2)
  | [], qs, flag => by simp [collapseRun]
  | p :: ps, qs, flag => by
    rw [List.cons_append, collapseRun, collapseRun]
    by_cases hl : p.2.length > 0
    · rw [if_pos hl, if_pos hl]
      cases htf : tomeFind tome gname p.2 with
      | some h =>
        dsimp only
        cases flag with
        | true =>
          rw [if_pos rfl, if_pos rfl]
          rw [collapseRun_append gname tome ln ps qs false]
          dsimp only
          rw [List.cons_append]
        | false =>
          rw [if_neg (by decide), if_neg (by decide)]
          exact collapseRun_append gname tome ln ps qs false
      | none =>
        dsimp only
        rw [collapseRun_append gname tome ln ps qs flag]
        dsimp only
        rw [List.cons_append]
    · rw [if_neg hl, if_neg hl]
      exact collapseRun_append gname tome ln ps qs flag

/-- The per-node call-edge fold is `collapseRun` over that node's pairs. -/
theorem callEdgeFold_run (gname : String) (tome : List (String × List String)) (ln : Bool)
    (n : Node) :
    ∀ (fcs : List String) (st : Bool × List String),
      fcs.foldl (callEdgeStep gname tome ln n) st
        = ((collapseRun gname tome ln st.1 (fcs.map (fun fc => (n, fc)))).1,
           st.2 ++ (collapseRun gname tome ln st.1 (fcs.map (fun fc => (n, fc)))).2)
  | [], st => by simp [collapseRun]
  | fc :: fcs, st => by
    rw [List.map_cons, List.foldl_cons, callEdgeStep, collapseRun]
    by_cases hl : fc.length > 0
    · rw [if_pos hl, if_pos (show (n, fc).2.length > 0 from hl)]
      cases htf : tomeFind tome gname fc with
      | some headName =>
        dsimp only
        cases hf : st.1 with
        | true =>
          rw [if_pos rfl, if_pos rfl]
          rw [callEdgeFold_run gname tome ln n fcs (false, st.2 ++ [_])]
          dsimp only
          rw [List.append_assoc]
          have hline : collapsedEdge gname tome ln (n, fc)
              = (if ln then
                  fc ++ " -> " ++ nodeRef true n ++ " [lhead=cluster_" ++ headName ++
                    ",ltail=cluster_" ++ gname ++ "];"
                 else
                  fc ++ " -> " ++ nodeRef false n ++ " [ltail=cluster_" ++ headName ++
                    ",lhead=cluster_" ++ gname ++ "];") := by
            rw [collapsedEdge]
            dsimp only
            rw [show tomeFind tome gname (n, fc).2 = some headName from htf]
            rfl
          rw [hline]
          rfl
        | false =>
          rw [if_neg (by decide), if_neg (by decide)]
          have hIH := callEdgeFold_run gname tome ln n fcs st
          rw [hf] at hIH
          exact hIH
      | none =>
        dsimp only
        rw [callEdgeFold_run gname tome ln n fcs (st.1, st.2 ++ [_])]
        dsimp only
        rw [List.append_assoc]
        rfl
    · rw [if_neg hl, if_neg (show ¬((n, fc).2.length > 0) from hl)]
      exact callEdgeFold_run gname tome ln n fcs st

/-- The node-list fold of the clustered branch: flag and tail components are
`collapseRun` over the nodes' pairs. -/
theorem clusterNodeFold_run (gname : String) (tome : List (String × List String)) (ln : Bool)
    (fill : String) :
    ∀ (nodes : List Node) (st : List String × Bool × List String),
      ((nodes.foldl (clusterNodeStep gname tome ln fill) st).2.1
          = (collapseRun gname tome ln st.2.1 (nodes.flatMap nodePairs)).1) ∧
      ((nodes.foldl (clusterNodeStep gname tome ln fill) st).2.2
          = st.2.2 ++ (collapseRun gname tome ln st.2.1 (nodes.flatMap nodePairs)).2)
  | [], st => by simp [collapseRun]
  | node :: nodes, st => by
    rw [List.foldl_cons, List.flatMap_cons]
    have hstep : clusterNodeStep gname tome ln fill st node
        = (st.1 ++ [nodeDeclLine ln fill node],
           (collapseRun gname tome ln st.2.1 (nodePairs node)).1,
           st.2.2 ++ (collapseRun gname tome ln st.2.1 (nodePairs node)).2) := by
      rw [clusterNodeStep]
      rw [callEdges, callEdgeFold_run gname tome ln node node.calledFunctions st.2]
      rfl
    rw [hstep]
    have hIH := clusterNodeFold_run gname tome ln fill nodes
      (st.1 ++ [nodeDeclLine ln fill node],
       (collapseRun gname tome ln st.2.1 (nodePairs node)).1,
       st.2.2 ++ (collapseRun gname tome ln st.2.1 (nodePairs node)).2)
    rw [collapseRun_append gname tome ln (nodePairs node) (nodes.flatMap nodePairs) st.2.1]
    refine ⟨?_, ?_⟩
    · rw [hIH.1]
    · rw [hIH.2]
      dsimp only
      rw [List.append_assoc]

/-- The row fold of the clustered branch: flag and tail components are
`collapseRun` over the row chunks' pairs. -/
theorem rowsFold_run (gname : String) (tome : List (String × List String)) (ln : Bool)
    (fill : String) (ntc : List Node) (w : Nat) :
    ∀ (rows : List Nat) (st : List String × Bool × List String),
      (((rows.foldl (clusterRowStep gname tome ln fill ntc w) st).2.1
          = (collapseRun gname tome ln st.2.1
              (rows.flatMap
                (fun r => ((ntc.drop (r * (w + 1))).take (w + 1)).flatMap nodePairs))).1) ∧
       ((rows.foldl (clusterRowStep gname tome ln fill ntc w) st).2.2
          = st.2.2 ++ (collapseRun gname tome ln st.2.1
              (rows.flatMap
                (fun r => ((ntc.drop (r * (w + 1))).take (w + 1)).flatMap nodePairs))).2))
  | [], st => by simp [collapseRun]
  | row :: rows, st => by
    rw [List.foldl_cons, List.flatMap_cons]
    have hnode := clusterNodeFold_run gname tome ln fill
      ((ntc.drop (row * (w + 1))).take (w + 1))
      (st.1 ++
        ["subgraph newRow" ++ toString row ++ "_" ++ gname ++ " \x7b",
         "rank=\"same\";",
         gname ++ "_row" ++ toString row ++ " [fontsize=1.0,style=\"invis\"];"],
       st.2.1, st.2.2)
    have hstep : clusterRowStep gname tome ln fill ntc w st row
        = ((((ntc.drop (row * (w + 1))).take (w + 1)).foldl
              (clusterNodeStep gname tome ln fill)
              (st.1 ++
                ["subgraph newRow" ++ toString row ++ "_" ++ gname ++ " \x7b",
                 "rank=\"same\";",
                 gname ++ "_row" ++ toString row ++ " [fontsize=1.0,style=\"invis\"];"],
               st.2.1, st.2.2)).1 ++ ["\x7d"],
           (collapseRun gname tome ln st.2.1
             (((ntc.drop (row * (w + 1))).take (w + 1)).flatMap nodePairs)).1,
           st.2.2 ++ (collapseRun gname tome ln st.2.1
             (((ntc.drop (row * (w + 1))).take (w + 1)).flatMap nodePairs)).2) := by
      rw [clusterRowStep]
      rw [← hnode.1, ← hnode.2]
    rw [hstep]
    have hIH := rowsFold_run gname tome ln fill ntc w rows
      ((((ntc.drop (row * (w + 1))).take (w + 1)).foldl
          (clusterNodeStep gname tome ln fill)
          (st.1 ++
            ["subgraph newRow" ++ toString row ++ "_" ++ gname ++ " \x7b",
             "rank=\"same\";",
             gname ++ "_row" ++ toString row ++ " [fontsize=1.0,style=\"invis\"];"],
           st.2.1, st.2.2)).1 ++ ["\x7d"],
       (collapseRun gname tome ln st.2.1
         (((ntc.drop (row * (w + 1))).take (w + 1)).flatMap nodePairs)).1,
       st.2.2 ++ (collapseRun gname tome ln st.2.1
         (((ntc.drop (row * (w + 1))).take (w + 1)).flatMap nodePairs)).2)
    rw [collapseRun_append gname tome ln
      (((ntc.drop (row * (w + 1))).take (w + 1)).flatMap nodePairs)
      (rows.flatMap (fun r => ((ntc.drop (r * (w + 1))).take (w + 1)).flatMap nodePairs))
      st.2.1]
    refine ⟨?_, ?_⟩
    · rw [hIH.1]
    · rw [hIH.2]
      dsimp only
      rw [List.append_assoc]

/-- `flatMap` over a mapped list. -/
theorem flatMap_comp {α β γ : Type} (xs : List α) (g : α → β) (f : β → List γ) :
    (xs.map g).flatMap f = xs.flatMap (fun x => f (g x)) := by
  induction xs with
  | nil => rfl
  | cons x xs ih => simp only [List.map_cons, List.flatMap_cons, ih]

/-- `flatMap` distributes over append. -/
theorem flatMap_append2 {α β : Type} (xs ys : List α) (f : α → List β) :
    (xs ++ ys).flatMap f = xs.flatMap f ++ ys.flatMap f := by
  induction xs with
  | nil => rfl
  | cons x xs ih => simp only [List.cons_append, List.flatMap_cons, ih, List.append_assoc]

/-- Composition of `flatMap`s. -/
theorem flatMap_flatMap2 {α β γ : Type} (xs : List α) (f : α → List β) (g : β → List γ) :
    (xs.flatMap f).flatMap g = xs.flatMap (fun x => (f x).flatMap g) := by
  induction xs with
  | nil => rfl
  | cons x xs ih => rw [List.flatMap_cons, flatMap_append2, ih, List.flatMap_cons]

/-- Pointwise congruence for `flatMap`. -/
theorem flatMap_congr {α β : Type} (xs : List α) (f g : α → List β)
    (h : ∀ x ∈ xs, f x = g x) : xs.flatMap f = xs.flatMap g := by
  induction xs with
  | nil => rfl
  | cons x xs ih =>
    rw [List.flatMap_cons, List.flatMap_cons, h x (List.mem_cons_self _ _),
      ih (fun y hy => h y (List.mem_cons_of_mem _ hy))]

/-- Consecutive chunks of size `k` cover a list whose length is at most
`h * k`. -/
theorem range_chunks (k : Nat) :
    ∀ (h : Nat) (l : List Node), l.length ≤ h * k →
      (List.range h).flatMap (fun r => (l.drop (r * k)).take k) = l
  | 0, l, hl => by
    have h0 : l = [] := List.length_eq_zero.mp (by omega)
    subst h0
    simp
  | h + 1, l, hl => by
    rw [List.range_succ_eq_map, List.flatMap_cons, flatMap_comp]
    have hcongr : (List.range h).flatMap (fun r => (l.drop (Nat.succ r * k)).take k)
        = (List.range h).flatMap (fun r => ((l.drop k).drop (r * k)).take k) := by
      refine flatMap_congr (List.range h) _ _ (fun r _ => ?_)
      rw [List.drop_drop, Nat.succ_mul, Nat.add_comm (r * k) k]
    rw [hcongr, range_chunks k h (l.drop k) (by
      rw [List.length_drop]
      have hm : (h + 1) * k = h * k + k := by ring
      omega)]
    rw [Nat.zero_mul, List.drop_zero]
    exact List.take_append_drop k l

/-- The tail lines of the clustered branch are exactly the `collapseRun`
over the visited pairs, flag initially set. -/
theorem translateSubgraph_tail (g : subGraph) (num : Nat) (fill : String)
    (tome : List (String × List String)) (ln : Bool) :
    (translateSubgraph g num true fill tome ln).2
      = (collapseRun g.name tome ln true (callPairs g)).2 := by
  rw [translateSubgraph, if_pos rfl]
  dsimp only
  set sC := (segregate g).1 with hsC
  set sN := (segregate g).2 with hsN
  set h := if Nat.sqrt sC.length = 0 then 1 else Nat.sqrt sC.length with hh
  set w := sC.length / h + 1 with hw
  set header := ["subgraph cluster_" ++ g.name ++ " \x7b",
    "label=" ++ "\"" ++ g.name ++ "\";",
    "style=\"filled\";",
    "fillcolor=\"#f0f0f0\";",
    "clusterrank=\"local\""] with hhd
  have hrows := rowsFold_run g.name tome ln fill sC w (List.range h) (header, true, [])
  have hnc := clusterNodeFold_run g.name tome ln fill sN
    ((List.range h).foldl (clusterRowStep g.name tome ln fill sC w) (header, true, []))
  rw [hnc.2, hrows.1, hrows.2, List.nil_append]
  have hchunks : (List.range h).flatMap (fun r => (sC.drop (r * (w + 1))).take (w + 1)) = sC := by
    apply range_chunks
    have hpos : 0 < h := by
      rw [hh]
      split
      · exact Nat.one_pos
      · rename_i hne
        omega
    have hmod := Nat.mod_lt sC.length hpos
    calc sC.length = h * (sC.length / h) + sC.length % h := (Nat.div_add_mod _ _).symm
      _ ≤ h * (sC.length / h) + h := by omega
      _ = h * (sC.length / h + 1) := by ring
      _ ≤ h * (sC.length / h + 1 + 1) := Nat.mul_le_mul_left h (by omega)
      _ = h * (w + 1) := by rw [hw]
  have hsplit2 : (List.range h).flatMap
      (fun r => ((sC.drop (r * (w + 1))).take (w + 1)).flatMap nodePairs)
      = sC.flatMap nodePairs := by
    rw [← flatMap_flatMap2, hchunks]
  rw [hsplit2, callPairs, ← hsC, ← hsN, flatMap_append2]
  rw [collapseRun_append g.name tome ln (sC.flatMap nodePairs) (sN.flatMap nodePairs) true]

/-- A pair list with no tome hit leaves the flag unchanged and emits exactly
the plain edges. -/
theorem collapseRun_nohit (gname : String) (tome : List (String × List String)) (ln : Bool) :
    ∀ (ps : List (Node × String)) (flag : Bool),
      (∀ p ∈ ps, ¬tomeHit gname tome p) →
      collapseRun gname tome ln flag ps = (flag, plainEdges gname tome ln ps)
  | [], flag, _ => rfl
  | p :: ps, flag, h => by
    rw [collapseRun, plainEdges]
    have hp := h p (List.mem_cons_self _ _)
    rw [tomeHit] at hp
    push_neg at hp
    by_cases hl : p.2.length > 0
    · have hfind : tomeFind tome gname p.2 = none := hp hl
      rw [if_pos hl, hfind]
      dsimp only
      rw [collapseRun_nohit gname tome ln ps flag (fun q hq => h q (List.mem_cons_of_mem _ hq))]
      rw [if_pos (show p.2.length > 0 ∧ (none : Option String) = none from ⟨hl, rfl⟩)]
      rfl
    · rw [if_neg hl, if_neg (fun hc => hl hc.1), List.nil_append]
      exact collapseRun_nohit gname tome ln ps flag
        (fun q hq => h q (List.mem_cons_of_mem _ hq))

/-- Once the flag is cleared, every later tome hit is silently dropped: the
run emits exactly the plain edges. -/
theorem collapseRun_cleared (gname : String) (tome : List (String × List String)) (ln : Bool) :
    ∀ (ps : List (Node × String)),
      collapseRun gname tome ln false ps = (false, plainEdges gname tome ln ps)
  | [] => rfl
  | p :: ps => by
    rw [collapseRun, plainEdges]
    by_cases hl : p.2.length > 0
    · rw [if_pos hl]
      cases htf : tomeFind tome gname p.2 with
      | some h =>
        rw [if_neg (by decide)]
        rw [collapseRun_cleared gname tome ln ps]
        rw [if_neg (fun hc => Option.noConfusion hc.2)]
        rfl
      | none =>
        dsimp only
        rw [collapseRun_cleared gname tome ln ps]
        rw [if_pos (show p.2.length > 0 ∧ (none : Option String) = none from ⟨hl, rfl⟩)]
        rfl
    · rw [if_neg hl, if_neg (fun hc => hl hc.1), List.nil_append]
      exact collapseRun_cleared gname tome ln ps

/-- **C6.**  In clustered mode the emitter outputs at most one collapsed
cross-cluster edge per subgraph run — a fortiori at most one per ordered
(source cluster, target cluster) pair: splitting the visited
(caller, callee) pairs at the first tome hit, the tail lines are exactly the
plain edges before it, then that hit's collapsed edge — the first such edge
encountered wins — then only the plain edges of the remainder, every later
hit being silently dropped; with no hit, only plain edges are emitted; and
two runs on the same subgraph, tome and colour yield the same tail lines,
hence the same number of cross-cluster edges. -/
theorem c6_cross_cluster_collapse (g : subGraph) (num : Nat) (fill : String)
    (tome : List (String × List String)) (ln : Bool) :
    (∀ (ps1 : List (Node × String)) (p : Node × String) (ps2 : List (Node × String)),
        callPairs g = ps1 ++ p :: ps2 →
        tomeHit g.name tome p →
        (∀ q ∈ ps1, ¬tomeHit g.name tome q) →
        (translateSubgraph g num true fill tome ln).2
          = plainEdges g.name tome ln ps1 ++
              collapsedEdge g.name tome ln p :: plainEdges g.name tome ln ps2) ∧
    ((∀ q ∈ callPairs g, ¬tomeHit g.name tome q) →
        (translateSubgraph g num true fill tome ln).2
          = plainEdges g.name tome ln (callPairs g)) ∧
    (∀ r1 r2 : List String × List String,
        r1 = translateSubgraph g num true fill tome ln →
        r2 = translateSubgraph g num true fill tome ln →
        r1.2 = r2.2) := by
  refine ⟨?_, ?_, ?_⟩
  · intro ps1 p ps2 hsplit hhit hbefore
    rw [translateSubgraph_tail, hsplit]
    rw [collapseRun_append g.name tome ln ps1 (p :: ps2) true]
    rw [collapseRun_nohit g.name tome ln ps1 true hbefore]
    dsimp only
    rw [collapseRun]
    obtain ⟨hl, hne⟩ := hhit
    obtain ⟨hd, hfind⟩ := Option.ne_none_iff_exists'.mp hne
    rw [if_pos hl, hfind]
    dsimp only
    rw [collapseRun_cleared g.name tome ln ps2, if_pos rfl]
  · intro hall
    rw [translateSubgraph_tail, collapseRun_nohit g.name tome ln (callPairs g) true hall]
  · intro r1 r2 h1 h2
    rw [h1, h2]

/-- Closed instance of C6 at a one-node subgraph with a two-entry tome whose
single pair is a tome hit. -/
theorem c6_witness :
    (translateSubgraph (subGraph.mk "a" [Node.mk "a" "a" 0 none [] ["b"]]) 0 true "\"#aaaaaa\""
        [("a", ["a"]), ("b", ["b"])] false).2
      = plainEdges "a" [("a", ["a"]), ("b", ["b"])] false [] ++
          collapsedEdge "a" [("a", ["a"]), ("b", ["b"])] false
            (Node.mk "a" "a" 0 none [] ["b"], "b") ::
          plainEdges "a" [("a", ["a"]), ("b", ["b"])] false [] :=
  (c6_cross_cluster_collapse (subGraph.mk "a" [Node.mk "a" "a" 0 none [] ["b"]]) 0 "\"#aaaaaa\""
      [("a", ["a"]), ("b", ["b"])] false).1
    [] (Node.mk "a" "a" 0 none [] ["b"], "b") []
    (by decide) ⟨by decide, by decide⟩ (fun q hq => absurd hq (List.not_mem_nil q))

/-- C10 witness: the frame property instantiated on the two-file example
directory. -/
theorem c10_witness :
    ∃ (prefixLines edges : List String),
      translateDirectory exampleFilesAB ".cpp" false false false constColor =
        some (prefixLines ++ edges ++ ["\x7d"]) ∧
      translateDirectory exampleFilesAB ".cpp" false true false constColor =
        some (prefixLines ++
          edges.filter
            (fun e =>
              ((((([⟨"a", [⟨"a", "a", 0, none, [], ["b"]⟩]⟩,
                   ⟨"b", [⟨"b", "b", 0, none, [], []⟩]⟩] : List subGraph).map
                  (fun g => g.includedNodes)).flatten.map Node.name).contains
                (edgeSource e)))) ++ ["\x7d"]) :=
  c10_exclusive_frame exampleFilesAB ".cpp" false false constColor
    [⟨"a", [⟨"a", "a", 0, none, [], ["b"]⟩]⟩, ⟨"b", [⟨"b", "b", 0, none, [], []⟩]⟩]
    (by decide)

/-- In-range Python indexing always yields a value. -/
theorem pyGet?_some_of_lt (l : List String) (i : Int) (h0 : 0 ≤ i) (h1 : i < l.length) :
    ∃ x, pyGet? l i = some x := by
  unfold pyGet?
  rw [if_pos h0]
  have hlt : i.toNat < l.length := by omega
  exact ⟨l.get ⟨i.toNat, hlt⟩, List.get?_eq_get hlt⟩

/-- The backward scan of `parseFunctionDefinition` lands exactly where the
reference scan `findOpen` points, given enough fuel. -/
theorem scanReaches (pn : String) (fl : List String) (dln index : Int) :
    ∀ (t : Nat), t ≤ fl.length →
    ∀ (pc k fuel : Nat),
      findOpen ((fl.take t).reverse) pc = some k →
      k < fuel →
      parseFunctionDefinitionAux pn fl index dln fuel (t : Int) pc =
        headerExtract pn fl ((t : Int) - 1 - (k : Int)) index dln
  | 0, hle, pc, k, fuel, hfind, hfuel => by
    rw [List.take_zero, List.reverse_nil] at hfind
    exact absurd hfind (by simp [findOpen])
  | s + 1, hle, pc, k, fuel, hfind, hfuel => by
    have hs : s < fl.length := by omega
    have hdec : (fl.take (s + 1)).reverse = fl.get ⟨s, hs⟩ :: (fl.take s).reverse := by
      rw [List.take_succ, List.getElem?_eq_getElem hs]
      simp [List.get_eq_getElem]
    rw [hdec] at hfind
    obtain ⟨f, rfl⟩ : ∃ f, fuel = f + 1 := ⟨fuel - 1, by omega⟩
    rw [parseFunctionDefinitionAux]
    have hti : ((s : Int) + 1) - 1 = (s : Int) := by omega
    have hget : pyGet? fl (((s + 1 : Nat) : Int) - 1) = some (fl.get ⟨s, hs⟩) := by
      have : ((s + 1 : Nat) : Int) - 1 = (s : Int) := by push_cast; omega
      rw [this]
      unfold pyGet?
      rw [if_pos (by omega)]
      have : ((s : Int)).toNat = s := by omega
      rw [this]
      exact List.get?_eq_get hs
    rw [hget]
    dsimp only
    rw [findOpen] at hfind
    by_cases hopen : fl.get ⟨s, hs⟩ = "(" ∧ pc = 0
    · rw [if_pos hopen] at hfind
      injection hfind with hk
      subst hk
      rw [if_pos hopen.1]
      have hpc : (if fl.get ⟨s, hs⟩ = ")" then pc + 1 else pc) = 0 := by
        rw [if_neg (by rw [hopen.1]; decide), hopen.2]
      rw [hpc]
      rw [if_pos rfl]
      congr 1
      push_cast
      omega
    · rw [if_neg hopen] at hfind
      by_cases hpar : fl.get ⟨s, hs⟩ = "("
      · have hpcpos : pc ≠ 0 := fun hz => hopen ⟨hpar, hz⟩
        rw [if_pos hpar] at hfind
        obtain ⟨k2, hk2, rfl⟩ := Option.map_eq_some'.mp hfind
        have hpc : (if fl.get ⟨s, hs⟩ = ")" then pc + 1 else pc) = pc := by
          rw [if_neg (by rw [hpar]; decide)]
        rw [hpc, if_pos hpar, if_neg hpcpos]
        have hrec := scanReaches pn fl dln index s (by omega) (pc - 1) k2 f hk2 (by omega)
        have harg : ((s + 1 : Nat) : Int) - 1 = (s : Int) := by push_cast; omega
        rw [harg, hrec]
        congr 1
        push_cast
        omega
      · rw [if_neg hpar] at hfind
        by_cases hclose : fl.get ⟨s, hs⟩ = ")"
        · rw [if_pos hclose] at hfind
          obtain ⟨k2, hk2, rfl⟩ := Option.map_eq_some'.mp hfind
          rw [if_pos hclose, if_neg hpar]
          have hrec := scanReaches pn fl dln index s (by omega) (pc + 1) k2 f hk2 (by omega)
          have harg : ((s + 1 : Nat) : Int) - 1 = (s : Int) := by push_cast; omega
          rw [harg, hrec]
          congr 1
          push_cast
          omega
        · rw [if_neg hclose] at hfind
          obtain ⟨k2, hk2, rfl⟩ := Option.map_eq_some'.mp hfind
          rw [if_neg hclose, if_neg hpar]
          have hrec := scanReaches pn fl dln index s (by omega) pc k2 f hk2 (by omega)
          have harg : ((s + 1 : Nat) : Int) - 1 = (s : Int) := by push_cast; omega
          rw [harg, hrec]
          congr 1
          push_cast
          omega

/-- C9: at a candidate definition site (the `)` at position `index`, with the
`\x7b` right after it), if the tokens strictly before the `)` contain the
matching unmatched `(` (reference scan `findOpen`) with at least one token
before that `(`, then the backward header scan terminates precisely at that
`(` (it neither exhausts its fuel nor wraps to a negative effective index:
every index it touches lies in `[index - 1 - k - 1, index - 1]` ⊆
`[0, fl.length)`), the only possible failure after the scan is the body
scan's own out-of-bounds failure, and at most one Node is produced. -/
theorem c9_header_scan (pn : String) (fl : List String) (dln : Int) (index k : Nat)
    (hlen : index ≤ fl.length)
    (hfind : findOpen ((fl.take index).reverse) 0 = some k)
    (hk : k + 2 ≤ index) :
    parseFunctionDefinition pn fl (index : Int) dln =
      headerExtract pn fl ((index : Int) - 1 - (k : Int)) (index : Int) dln ∧
    1 ≤ (index : Int) - 1 - (k : Int) ∧
    (headerExtract pn fl ((index : Int) - 1 - (k : Int)) (index : Int) dln = none →
      parseFunctionCalls fl ((index : Int) + 1) = none) ∧
    ∀ r, parseFunctionDefinition pn fl (index : Int) dln = some r → r.toList.length ≤ 1 := by
  have heq : parseFunctionDefinition pn fl (index : Int) dln =
      headerExtract pn fl ((index : Int) - 1 - (k : Int)) (index : Int) dln := by
    unfold parseFunctionDefinition
    exact scanReaches pn fl dln (index : Int) index hlen 0 k _ hfind (by omega)
  refine ⟨heq, by omega, ?_, ?_⟩
  · intro hnone
    unfold headerExtract at hnone
    obtain ⟨prev, hprev⟩ := pyGet?_some_of_lt fl ((index : Int) - 1 - (k : Int) - 1)
      (by omega) (by omega)
    rw [hprev] at hnone
    dsimp only at hnone
    repeat' split at hnone
    all_goals
      first
      | (rename_i hcalls
         exact hcalls)
      | exact Option.noConfusion hnone
  · intro r hr
    cases r with
    | none => simp
    | some n => simp

/-- C9 witness: the scan property evaluated at the site of
`int foo ( ) \x7b \x7d` (the `)` at index 3, matching `(` at distance 0). -/
theorem c9_witness :
    parseFunctionDefinition "f" ["int", "foo", "(", ")", "\x7b", "\x7d"] ((3 : Nat) : Int) 0 =
      headerExtract "f" ["int", "foo", "(", ")", "\x7b", "\x7d"]
        (((3 : Nat) : Int) - 1 - ((0 : Nat) : Int)) ((3 : Nat) : Int) 0 :=
  (c9_header_scan "f" ["int", "foo", "(", ")", "\x7b", "\x7d"] 0 3 0 (by decide)
    (by decide) (by decide)).1

/-- Indexing into the middle block of a concatenation. -/
theorem pyGet?_block (pre mid suf : List String) (c : Nat) (hc : c < mid.length) :
    pyGet? (pre ++ (mid ++ suf)) ((pre.length + c : Nat) : Int) = mid.get? c := by
  unfold pyGet?
  rw [if_pos (by omega)]
  rw [show ((pre.length + c : Nat) : Int).toNat = pre.length + c from by omega]
  rw [List.get?_append_right (by omega)]
  rw [show pre.length + c - pre.length = c from by omega]
  exact List.get?_append hc

/-- An empty Python slice. -/
theorem pySlice_self (l : List String) (a : Int) : pySlice l a a = [] := by
  unfold pySlice
  apply List.drop_eq_nil_of_le
  calc (l.take (pyClamp l.length a)).length ≤ pyClamp l.length a := by
        rw [List.length_take]
        omega
    _ ≤ pyClamp l.length a := le_refl _

/-- The default head of a nonempty list is a member. -/
theorem headI_mem_of_ne_nil : ∀ (l : List Char), l ≠ [] → l.headI ∈ l
  | [], h => absurd rfl h
  | c :: l, _ => List.mem_cons_self c l

/-- A nonempty pattern whose head differs from the first character never
matches as a prefix. -/
theorem isPrefixOf_false_head (pat : List Char) (hp : pat ≠ []) (c : Char) (s : List Char)
    (hne : pat.headI ≠ c) : List.isPrefixOf pat (c :: s) = false := by
  cases pat with
  | nil => exact absurd rfl hp
  | cons p ps =>
    have hpc : p ≠ c := hne
    simp [List.isPrefixOf, hpc]

/-- A space-free pattern matches at the head of `w ++ ' ' :: v` iff it
matches at the head of `w`. -/
theorem isPrefixOf_append_space :
    ∀ (pat : List Char), ' ' ∉ pat → ∀ (w v : List Char),
      List.isPrefixOf pat (w ++ ' ' :: v) = List.isPrefixOf pat w
  | [], _, w, v => by simp [List.isPrefixOf]
  | p :: ps, hsp, [], v => by
    have hp : p ≠ ' ' := fun e => hsp (by rw [← e]; exact List.mem_cons_self p ps)
    simp [List.isPrefixOf, hp]
  | p :: ps, hsp, c :: w, v => by
    simp only [List.cons_append, List.isPrefixOf, List.append_eq]
    rw [isPrefixOf_append_space ps (fun hm => hsp (List.mem_cons_of_mem _ hm)) w v]

/-- `str.replace` with a space-free pattern distributes over the single-space
join: no match straddles the separator. -/
theorem replaceCore_append_space (pat rep : List Char) (hp : pat ≠ []) (hsp : ' ' ∉ pat) :
    ∀ (u : List Char) (skip : Nat) (v : List Char), skip ≤ u.length →
      replaceCore pat rep (u ++ ' ' :: v) skip
        = replaceCore pat rep u skip ++ ' ' :: replaceCore pat rep v 0
  | [], skip, v, hs => by
    have h0 : skip = 0 := Nat.le_zero.mp hs
    subst h0
    rw [List.nil_append, replaceCore, replaceCore]
    rw [isPrefixOf_false_head pat hp ' ' v (by
      intro e
      apply hsp
      rw [← e]
      exact headI_mem_of_ne_nil pat hp)]
    simp only [Bool.false_eq_true, if_false]
    rfl
  | c :: u, skip + 1, v, hs => by
    show replaceCore pat rep (u ++ ' ' :: v) skip
      = replaceCore pat rep u skip ++ ' ' :: replaceCore pat rep v 0
    exact replaceCore_append_space pat rep hp hsp u skip v (by
      simp only [List.length_cons] at hs
      omega)
  | c :: u, 0, v, _ => by
    rw [List.cons_append, replaceCore, replaceCore]
    rw [← List.cons_append, isPrefixOf_append_space pat hsp (c :: u) v]
    by_cases hm : List.isPrefixOf pat (c :: u) = true
    · rw [hm]
      simp only [if_true, ite_true]
      have hlen : pat.length - 1 ≤ u.length := by
        have := (List.isPrefixOf_iff_prefix.mp hm).length_le
        simp at this
        omega
      rw [replaceCore_append_space pat rep hp hsp u (pat.length - 1) v hlen,
        List.append_assoc]
    · rw [Bool.not_eq_true] at hm
      rw [hm]
      simp only [Bool.false_eq_true, if_false]
      rw [replaceCore_append_space pat rep hp hsp u 0 v (Nat.zero_le _), List.cons_append]

/-- Distribution of the replacement core over the whole join. -/
theorem replaceCore_joinSp (pat rep : List Char) (hp : pat ≠ []) (hsp : ' ' ∉ pat) :
    ∀ ts, replaceCore pat rep (joinSp ts) 0
      = joinSp (ts.map (fun t => replaceCore pat rep t 0))
  | [] => rfl
  | [t] => rfl
  | t :: u :: ts => by
    show replaceCore pat rep (t ++ ' ' :: joinSp (u :: ts)) 0
      = joinSp (replaceCore pat rep t 0 ::
          (u :: ts).map (fun t => replaceCore pat rep t 0))
    rw [replaceCore_append_space pat rep hp hsp t 0 (joinSp (u :: ts)) (Nat.zero_le _)]
    rw [replaceCore_joinSp pat rep hp hsp (u :: ts)]
    rfl

/-- `str.replace` with a space-free pattern distributes over the join. -/
theorem replaceL_joinSp (pat rep : List Char) (hp : pat ≠ []) (hsp : ' ' ∉ pat)
    (ts : List (List Char)) :
    replaceL pat rep (joinSp ts) = joinSp (ts.map (replaceL pat rep)) := by
  unfold replaceL
  rw [if_neg hp, replaceCore_joinSp pat rep hp hsp ts]
  congr 1
  refine List.map_congr_left fun t _ => ?_
  rw [if_neg hp]

/-- A replacement whose pattern head is absent is the identity. -/
theorem replaceCore_id :
    ∀ (pat rep s : List Char), pat ≠ [] → pat.headI ∉ s → replaceCore pat rep s 0 = s
  | pat, rep, [], _, _ => by rw [replaceCore]
  | pat, rep, c :: s, hp, hh => by
    rw [replaceCore]
    rw [isPrefixOf_false_head pat hp c s
      (fun e => hh (by rw [e]; exact List.mem_cons_self c s))]
    simp only [Bool.false_eq_true, if_false]
    rw [replaceCore_id pat rep s hp (fun hm => hh (List.mem_cons_of_mem _ hm))]

/-- `str.replace` is the identity when the pattern head is absent. -/
theorem replaceL_id (pat rep s : List Char) (hp : pat ≠ []) (hh : pat.headI ∉ s) :
    replaceL pat rep s = s := by
  unfold replaceL
  rw [if_neg hp, replaceCore_id pat rep s hp hh]

/-- `str.find` returns `-1` when the pattern head is absent. -/
theorem findL_neg :
    ∀ (pat s : List Char), pat ≠ [] → pat.headI ∉ s → findL pat s = -1
  | pat, [], hp, _ => by rw [findL, if_neg hp]
  | pat, c :: s, hp, hh => by
    rw [findL]
    rw [isPrefixOf_false_head pat hp c s
      (fun e => hh (by rw [e]; exact List.mem_cons_self c s))]
    simp only [Bool.false_eq_true, if_false]
    rw [findL_neg pat s hp (fun hm => hh (List.mem_cons_of_mem _ hm))]
    simp

/-- Characters of the join are spaces or characters of the tokens. -/
theorem mem_joinSp (c : Char) :
    ∀ (ts : List (List Char)), c ∈ joinSp ts → c = ' ' ∨ ∃ t ∈ ts, c ∈ t
  | [], h => absurd h (List.not_mem_nil c)
  | [t], h => Or.inr ⟨t, List.mem_cons_self _ _, h⟩
  | t :: u :: ts, h => by
    rw [show joinSp (t :: u :: ts) = t ++ ' ' :: joinSp (u :: ts) from rfl] at h
    rcases List.mem_append.mp h with h1 | h2
    · exact Or.inr ⟨t, List.mem_cons_self _ _, h1⟩
    · rcases List.mem_cons.mp h2 with h3 | h4
      · exact Or.inl h3
      · rcases mem_joinSp c (u :: ts) h4 with h5 | ⟨w, hw, hcw⟩
        · exact Or.inl h5
        · exact Or.inr ⟨w, List.mem_cons_of_mem _ hw, hcw⟩

/-- The space split distributes over a separator position. -/
theorem splitCore_append_space :
    ∀ (u v cur : List Char),
      splitCore [' '] (u ++ ' ' :: v) cur 0
        = splitCore [' '] u cur 0 ++ splitCore [' '] v [] 0
  | [], v, cur => by
    rw [List.nil_append, splitCore, splitCore]
    rw [show List.isPrefixOf [' '] (' ' :: v) = true from by simp [List.isPrefixOf]]
    simp only [if_true, ite_true]
    rfl
  | c :: u, v, cur => by
    rw [List.cons_append, splitCore, splitCore]
    by_cases hc : c = ' '
    · subst hc
      rw [show List.isPrefixOf [' '] (' ' :: (u ++ ' ' :: v)) = true from by
        simp [List.isPrefixOf]]
      rw [show List.isPrefixOf [' '] (' ' :: u) = true from by simp [List.isPrefixOf]]
      simp only [if_true, ite_true]
      rw [show ([' '] : List Char).length - 1 = 0 from rfl]
      rw [splitCore_append_space u v []]
      rfl
    · rw [show List.isPrefixOf [' '] (c :: (u ++ ' ' :: v)) = false from by
        simp [List.isPrefixOf]; exact fun e => hc e.symm]
      rw [show List.isPrefixOf [' '] (c :: u) = false from by
        simp [List.isPrefixOf]; exact fun e => hc e.symm]
      simp only [Bool.false_eq_true, if_false]
      rw [splitCore_append_space u v (c :: cur)]

/-- The split of a space-free string is the single fragment. -/
theorem splitCore_no_space :
    ∀ (t cur : List Char), ' ' ∉ t → splitCore [' '] t cur 0 = [cur.reverse ++ t]
  | [], cur, _ => by rw [splitCore]; simp
  | c :: t, cur, hh => by
    have hc : c ≠ ' ' := fun e => hh (by rw [← e]; exact List.mem_cons_self c t)
    rw [splitCore]
    rw [show List.isPrefixOf [' '] (c :: t) = false from by
      simp [List.isPrefixOf]; exact fun e => hc e.symm]
    simp only [Bool.false_eq_true, if_false]
    rw [splitCore_no_space t (c :: cur) (fun hm => hh (List.mem_cons_of_mem _ hm))]
    simp

/-- The tokenizer's final split distributes over the single-space join. -/
theorem splitF_append_space (u v : List Char) :
    splitF (u ++ ' ' :: v) = splitF u ++ splitF v := by
  unfold splitF pySplit
  rw [splitCore_append_space u v [], List.filter_append]

/-- The split of a nonempty space-free token is that token alone. -/
theorem splitF_single (t : List Char) (hne : t ≠ []) (hsp : ' ' ∉ t) : splitF t = [t] := by
  unfold splitF pySplit
  rw [splitCore_no_space t [] hsp]
  simp [hne]

/-- The split of a join is the concatenation of the splits. -/
theorem splitF_joinSp :
    ∀ (us : List (List Char)), splitF (joinSp us) = (us.map splitF).flatten
  | [] => by decide
  | [u] => by simp [joinSp]
  | u :: w :: us => by
    rw [show joinSp (u :: w :: us) = u ++ ' ' :: joinSp (w :: us) from rfl]
    rw [splitF_append_space, splitF_joinSp (w :: us)]
    rfl

/-- Flattening a list of singletons is the identity. -/
theorem flatten_map_singleton :
    ∀ (l : List (List Char)), (l.map (fun t => [t])).flatten = l
  | [] => rfl
  | t :: l => by
    rw [List.map_cons, List.flatten_cons, flatten_map_singleton l]
    rfl

/-- The full padding chain distributes over a separator position. -/
theorem perTok_append_space (u v : List Char) :
    perTok (u ++ ' ' :: v) = perTok u ++ ' ' :: perTok v := by
  have dist : ∀ (pat rep : List Char), pat ≠ [] → ' ' ∉ pat → ∀ (a b : List Char),
      replaceL pat rep (a ++ ' ' :: b) = replaceL pat rep a ++ ' ' :: replaceL pat rep b := by
    intro pat rep hp hsp a b
    unfold replaceL
    simp only [if_neg hp]
    exact replaceCore_append_space pat rep hp hsp a 0 b (Nat.zero_le _)
  dsimp only [perTok]
  rw [dist "(".data " ( ".data (by decide) (by decide)]
  rw [dist ")".data " ) ".data (by decide) (by decide)]
  rw [dist "\x7b".data " \x7b ".data (by decide) (by decide)]
  rw [dist "\x7d".data " \x7d ".data (by decide) (by decide)]
  rw [dist "[".data " [ ".data (by decide) (by decide)]
  rw [dist "]".data " ] ".data (by decide) (by decide)]
  rw [dist ",".data " , ".data (by decide) (by decide)]
  rw [dist "\\".data " @IGNOREQUOTE@ ".data (by decide) (by decide)]
  rw [dist "\t".data "".data (by decide) (by decide)]
  rw [dist "\n".data "".data (by decide) (by decide)]
  rw [dist "\"".data " @\"@ ".data (by decide) (by decide)]
  rw [dist "/*".data " @BEGINLONGCOMMENT@ ".data (by decide) (by decide)]
  rw [dist "*/".data " @ENDLONGCOMMENT@ ".data (by decide) (by decide)]
  rw [dist "*".data " * ".data (by decide) (by decide)]
  rw [dist "=".data " = ".data (by decide) (by decide)]
  rw [dist "-".data " - ".data (by decide) (by decide)]
  rw [dist "+".data " + ".data (by decide) (by decide)]
  rw [dist ">".data " > ".data (by decide) (by decide)]
  rw [dist "<".data " < ".data (by decide) (by decide)]

/-- The padding chain distributes over the single-space join. -/
theorem perTok_joinSp :
    ∀ (ts : List (List Char)), perTok (joinSp ts) = joinSp (ts.map perTok)
  | [] => by decide
  | [t] => rfl
  | t :: u :: ts => by
    show perTok (t ++ ' ' :: joinSp (u :: ts)) = joinSp (perTok t :: (u :: ts).map perTok)
    rw [perTok_append_space t (joinSp (u :: ts)), perTok_joinSp (u :: ts)]
    rfl

/-- The padding chain fixes every clean token. -/
theorem perTok_clean (t : List Char) (h : ∀ c ∈ t, c ∉ specialChars) : perTok t = t := by
  dsimp only [perTok]
  rw [replaceL_id "(".data " ( ".data t (by decide) (fun hm => h '(' hm (by decide))]
  rw [replaceL_id ")".data " ) ".data t (by decide) (fun hm => h ')' hm (by decide))]
  rw [replaceL_id "\x7b".data " \x7b ".data t (by decide) (fun hm => h '\x7b' hm (by decide))]
  rw [replaceL_id "\x7d".data " \x7d ".data t (by decide) (fun hm => h '\x7d' hm (by decide))]
  rw [replaceL_id "[".data " [ ".data t (by decide) (fun hm => h '[' hm (by decide))]
  rw [replaceL_id "]".data " ] ".data t (by decide) (fun hm => h ']' hm (by decide))]
  rw [replaceL_id ",".data " , ".data t (by decide) (fun hm => h ',' hm (by decide))]
  rw [replaceL_id "\\".data " @IGNOREQUOTE@ ".data t (by decide)
    (fun hm => h '\\' hm (by decide))]
  rw [replaceL_id "\t".data "".data t (by decide) (fun hm => h '\t' hm (by decide))]
  rw [replaceL_id "\n".data "".data t (by decide) (fun hm => h '\n' hm (by decide))]
  rw [replaceL_id "\"".data " @\"@ ".data t (by decide) (fun hm => h '"' hm (by decide))]
  rw [replaceL_id "/*".data " @BEGINLONGCOMMENT@ ".data t (by decide)
    (fun hm => h '/' hm (by decide))]
  rw [replaceL_id "*/".data " @ENDLONGCOMMENT@ ".data t (by decide)
    (fun hm => h '*' hm (by decide))]
  rw [replaceL_id "*".data " * ".data t (by decide) (fun hm => h '*' hm (by decide))]
  rw [replaceL_id "=".data " = ".data t (by decide) (fun hm => h '=' hm (by decide))]
  rw [replaceL_id "-".data " - ".data t (by decide) (fun hm => h '-' hm (by decide))]
  rw [replaceL_id "+".data " + ".data t (by decide) (fun hm => h '+' hm (by decide))]
  rw [replaceL_id ">".data " > ".data t (by decide) (fun hm => h '>' hm (by decide))]
  rw [replaceL_id "<".data " < ".data t (by decide) (fun hm => h '<' hm (by decide))]

/-- On a line with no `//` occurrence after the first padding step, the
per-line transformation is the comment-free padding chain followed by the
split. -/
theorem processLine_eq (s : List Char)
    (hfind : findL "//".data (replaceL "//".data "// ".data s) = -1) :
    processLine s = splitF (perTok (replaceL "//".data "// ".data s)) := by
  dsimp only [processLine, perTok]
  rw [hfind]
  rw [if_neg (show ¬(((-1 : Int)) ≠ -1 ∧
    ¬(findL "/*".data (replaceL "//".data "// ".data s) < -1)) from fun hc => hc.1 rfl)]

/-- **C8** (amended).  Idempotence holds on normalized streams of clean
tokens and single-character padding tokens: re-running the per-line
transformation on their single-space join returns the stream unchanged.
(The unrestricted claim is false: see the counterexample.) -/
theorem c8_amended (T : List (List Char)) (h : ∀ t ∈ T, cleanTok t ∨ t ∈ padToks) :
    processLine (joinSp T) = T := by
  have hid : T.map (replaceL "//".data "// ".data) = T := by
    refine (List.map_congr_left ?_).trans (List.map_id T)
    intro t ht
    rcases h t ht with hc | hp
    · exact replaceL_id _ _ _ (by decide) (fun hm => hc.2 '/' hm (by decide))
    · fin_cases hp <;> decide
  have h0 : replaceL "//".data "// ".data (joinSp T) = joinSp T := by
    rw [replaceL_joinSp _ _ (by decide) (by decide), hid]
  have hslash : "//".data.headI ∉ joinSp T := by
    intro hm
    rcases mem_joinSp _ T hm with h' | ⟨t, ht, hmem⟩
    · exact absurd h' (by decide)
    · rcases h t ht with hc | hp
      · exact hc.2 _ hmem (by decide)
      · revert hmem
        fin_cases hp <;> decide
  have hfind : findL "//".data (joinSp T) = -1 := findL_neg _ _ (by decide) hslash
  have hfind2 : findL "//".data (replaceL "//".data "// ".data (joinSp T)) = -1 := by
    rw [h0]
    exact hfind
  rw [processLine_eq (joinSp T) hfind2, h0]
  rw [perTok_joinSp T, splitF_joinSp, List.map_map]
  have hsing : T.map (splitF ∘ perTok) = T.map (fun t => [t]) := by
    refine List.map_congr_left fun t ht => ?_
    simp only [Function.comp_apply]
    rcases h t ht with hc | hp
    · rw [perTok_clean t hc.2]
      exact splitF_single t hc.1 (fun hm => hc.2 ' ' hm (by decide))
    · fin_cases hp <;> decide
  rw [hsing, flatten_map_singleton]

/-- **C8** counterexample.  Two real tokenizer outputs whose single-space
join re-tokenizes differently: the string sentinel `@"@` (its quote is
replaced again) and the token `a//b` produced by tab removal (its interior
`//` is padded on the second run). -/
theorem c8_counterexample :
    ((fileToList ["\"".data]).1 = ["@\"@"] ∧
      processLine (joinSp (((fileToList ["\"".data]).1).map String.data))
        ≠ ((fileToList ["\"".data]).1).map String.data) ∧
    ((fileToList ["a/\t/b".data]).1 = ["a//b"] ∧
      processLine (joinSp (((fileToList ["a/\t/b".data]).1).map String.data))
        ≠ ((fileToList ["a/\t/b".data]).1).map String.data) := by
  decide

/-- Closed instance of the amended C8 on a mixed clean/padding stream. -/
theorem c8_witness :
    processLine (joinSp [['v'], ['('], [')'], ['x']]) = [['v'], ['('], [')'], ['x']] :=
  c8_amended [['v'], ['('], [')'], ['x']] (by
    intro t ht
    fin_cases ht
    · exact Or.inl ⟨by decide, by decide⟩
    · exact Or.inr (by decide)
    · exact Or.inr (by decide)
    · exact Or.inl ⟨by decide, by decide⟩)

end FunctionFlow
